import Mathlib

/-!
Shallow embedding of the ART (Allotment Routing Table) implementation in
art.go (package art, bradfitz/art), together with proofs checking the
specification's claims against it.

Modelling conventions:
* Go `uint32` arithmetic is `Nat` with explicit `% 2 ^ 32` where overflow
  matters (shifts by up to 32 bits).
* Go slices of `Route` (the allotment array `r`) are total functions
  `Nat → Option Route`; `nil` interface entries are `none`.  All operations
  only ever touch indices below the Go array length, so the totalization is
  harmless.
* Go code that can panic is modelled with `Option`: `none` is a panic
  (nil-interface method call, index out of range).
* The Go `Route` interface (methods `IPPrefix`, `Equals`) is modelled by a
  concrete structure carrying a prefix and opaque metadata, with `Equals`
  being decidable equality, exactly the contract the spec states
  ("two routes compare equal iff both prefix and metadata match").
* `tableNode.parentPtr` is represented implicitly: a node is stored in the
  `n` slot of its parent, and `free` (which does `*x.parentPtr = nil`) is
  modelled by the parent setting that slot to `none`.  This is faithful for
  every table built through `NewTable`/`Insert`/`Delete`; the separate heap
  model used for the `Clone` claim tracks array identity explicitly.
-/

namespace ART

/-- Go `[4]byte` (a packed big-endian IPv4 address, `netaddr.IP.As4`). -/
structure Bytes4 where
  b0 : Nat
  b1 : Nat
  b2 : Nat
  b3 : Nat
deriving DecidableEq

/-- Go `[16]byte` (a packed big-endian IPv6 address, `netaddr.IP.As16`). -/
structure Bytes16 where
  b0 : Nat
  b1 : Nat
  b2 : Nat
  b3 : Nat
  b4 : Nat
  b5 : Nat
  b6 : Nat
  b7 : Nat
  b8 : Nat
  b9 : Nat
  b10 : Nat
  b11 : Nat
  b12 : Nat
  b13 : Nat
  b14 : Nat
  b15 : Nat
deriving DecidableEq

/-- `netaddr.IP`: either an IPv4 address (Is4) or an IPv6 address. -/
inductive IPAddr where
  | v4 (a : Bytes4)
  | v6 (a : Bytes16)
deriving DecidableEq

/-- `netaddr.IPPrefix`: an IP address plus a prefix length (`Bits`). -/
structure Pfx where
  ip : IPAddr
  bits : Nat
deriving DecidableEq

/-- A routing-table entry: the Go `Route` interface instantiated the way the
spec requires (a prefix plus client metadata, compared by value). `meta`
stands for the client payload; `Equals` is decidable equality of the
structure. -/
structure Route where
  ipp : Pfx
  meta : Nat
deriving DecidableEq

/-- The allotment array of one stride node: Go `r []Route` with `nil`
entries as `none`. -/
def RArr : Type := Nat → Option Route

instance : Inhabited RArr := ⟨fun _ => none⟩

/-- Write `v` at index `b` (Go `x.r[b] = v`). -/
def rupd (x : RArr) (b : Nat) (v : Option Route) : RArr :=
  fun i => if i = b then v else x i

/-- Go `baseIndex(width, addr, prefixLen)`:
`(addr >> uint32(width-prefixLen)) | (1 << uint32(prefixLen))` in `uint32`
arithmetic.  `1 << 32` wraps to `0` for `prefixLen = 32`, hence the
`% 2 ^ 32`. -/
def baseIndex (width addr prefixLen : Nat) : Nat :=
  (addr >>> (width - prefixLen)) ||| ((1 <<< prefixLen) % 2 ^ 32)

/-- Go `fringeIndex(width, addr) = baseIndex(width, addr, width)`. -/
def fringeIndex (width addr : Nat) : Nat :=
  baseIndex width addr width

/-- Go `getBits4(byteOffset, bits, from)`: take the first `4 - byteOffset`
bytes of `from` (skipping `byteOffset` bytes from the right), read them as a
big-endian number (for 4 remaining bytes, `binary.BigEndian.Uint32` of the
last 4 bytes of the slice), and mask to the low `bits` bits.  The Go mask
`(1 << bits) - 1` is computed in `uint32`, which equals
`(2 ^ bits - 1) % 2 ^ 32` for every `bits` (for `bits ≥ 32` the Go shift
wraps to 0 and the subtraction wraps to `2 ^ 32 - 1`). -/
def getBits4 (byteOffset bits : Nat) (a : Bytes4) : Nat :=
  if byteOffset > 4 then 0
  else
    let v : Nat :=
      match 4 - byteOffset with
      | 0 => 0
      | 1 => a.b0
      | 2 => a.b1 + (a.b0 <<< 8)
      | 3 => a.b2 + (a.b1 <<< 8) + (a.b0 <<< 16)
      | _ + 4 => a.b3 + (a.b2 <<< 8) + (a.b1 <<< 16) + (a.b0 <<< 24)
    v &&& ((2 ^ bits - 1) % 2 ^ 32)

/-- Byte `i` of a `Bytes16` (helper for `getBits16`'s slice indexing). -/
def Bytes16.get (a : Bytes16) : Nat → Nat
  | 0 => a.b0
  | 1 => a.b1
  | 2 => a.b2
  | 3 => a.b3
  | 4 => a.b4
  | 5 => a.b5
  | 6 => a.b6
  | 7 => a.b7
  | 8 => a.b8
  | 9 => a.b9
  | 10 => a.b10
  | 11 => a.b11
  | 12 => a.b12
  | 13 => a.b13
  | 14 => a.b14
  | 15 => a.b15
  | _ => 0

/-- Go `getBits16(byteOffset, bits, from)`: same as `getBits4` over a
16-byte array.  `src = from[:16-byteOffset]`; for `len(src) ≥ 4` the value
is the big-endian `uint32` of the last four bytes of `src`, i.e. bytes
`12 - byteOffset` through `15 - byteOffset`. -/
def getBits16 (byteOffset bits : Nat) (a : Bytes16) : Nat :=
  if byteOffset > 16 then 0
  else
    let v : Nat :=
      match 16 - byteOffset with
      | 0 => 0
      | 1 => a.get 0
      | 2 => a.get 1 + (a.get 0 <<< 8)
      | 3 => a.get 2 + (a.get 1 <<< 8) + (a.get 0 <<< 16)
      | _ + 4 =>
          a.get (15 - byteOffset) + (a.get (14 - byteOffset) <<< 8) +
          (a.get (13 - byteOffset) <<< 16) + (a.get (12 - byteOffset) <<< 24)
    v &&& ((2 ^ bits - 1) % 2 ^ 32)

/-- Go `(x *tableNode) allot(smallestFringeIndex, b, q, r)`.

The Go guard is `(x.r[b] == nil && q == nil) || x.r[b].Equals(q)`; when
`x.r[b]` is a nil interface and `q` is not, the method call on the nil
interface panics — that case is `none` here.  A concrete `Route.Equals`
receiving a nil argument (`q = none`) type-asserts and returns `false`.

The recursion `b → 2b, 2b+1` is driven by an explicit `fuel`: the Go
recursion from a base index `b ≥ 1` reaches the fringe after at most
`w + 1 ≤ 33` doublings, so every caller passes fuel `33`, which never runs
out for the calls the Go code makes (for `b = 0` and `sfi > 0` —
unreachable from base indices — the Go code would recurse forever; fuel
exhaustion is `none`). -/
def allot : Nat → Nat → Nat → Option Route → Option Route → RArr → Option RArr
  | 0, _, _, _, _, _ => none
  | fuel + 1, sfi, b, q, r, x =>
    match x b, q with
    | none, some _ => none
    | xb, qv =>
      if xb = qv then
        if sfi ≤ b then some (rupd x b r)
        else
          match allot fuel sfi (2 * b) q r (rupd x b r) with
          | none => none
          | some x2 => allot fuel sfi (2 * b + 1) q r x2
      else some x

/-- Fuel passed to `allot` by `insertSingle`/`deleteSingle`: enough for any
stride width `w ≤ 32` (depth from any `b ≥ 1` to the fringe is at most
`w + 1`). -/
def allotFuel : Nat := 33

/-- Go `(x *tableNode) insertSingle(w, addr, prefix, r)`: returns the
updated array and the reported `bool` (`false` when a route with the same
`IPPrefix` already occupies the base index). -/
def insertSingle (w addr plen : Nat) (r : Route) (x : RArr) : Option (RArr × Bool) :=
  let b := baseIndex w addr plen
  match x b with
  | some xb =>
      if r.ipp = xb.ipp then some (x, false)
      else Option.map (fun y => (y, true))
        (allot allotFuel ((1 <<< w) % 2 ^ 32) b (some xb) (some r) x)
  | none =>
      Option.map (fun y => (y, true))
        (allot allotFuel ((1 <<< w) % 2 ^ 32) b none (some r) x)

/-- Go `(x *tableNode) deleteSingle(w, addr, prefix)`: returns the updated
array, the deleted route, and `ok`. -/
def deleteSingle (w addr plen : Nat) (x : RArr) : Option (RArr × Option Route × Bool) :=
  let b := baseIndex w addr plen
  match x b with
  | none => some (x, none, false)
  | some prev =>
      Option.map (fun y => (y, some prev, true))
        (allot allotFuel ((1 <<< w) % 2 ^ 32) b (some prev) (x (b >>> 1)) x)

/-- Go `tableNode`: allotment array `r`, child-pointer array `n`, reference
count `ref`.  `parentPtr` is implicit (see the module comment). -/
inductive TNode where
  | mk (r : RArr) (n : Nat → Option TNode) (ref : Int) : TNode

def TNode.r : TNode → RArr
  | .mk r _ _ => r

def TNode.n : TNode → Nat → Option TNode
  | .mk _ n _ => n

def TNode.ref : TNode → Int
  | .mk _ _ ref => ref

/-- Write `c` into child slot `i` (Go `x.n[i] = ...`). -/
def nupd (n : Nat → Option TNode) (i : Nat) (c : Option TNode) : Nat → Option TNode :=
  fun j => if j = i then c else n j

/-- Go `newTableNode(stride)`: zeroed arrays (the stride argument only fixes
the Go array length, which the total-function model does not need). -/
def newTableNode : TNode := TNode.mk (fun _ => none) (fun _ => none) 0

/-- Go `Table`: address width, stride schedule, root node. -/
structure Table where
  w : Nat
  strides : List Nat
  root : TNode

/-- Go `maxLevel = 16`. -/
def maxLevel : Nat := 16

/-- Go `NewTable(strides)`: `none` models a panic (a non-final stride not a
multiple of 8, a stride over 32 bits, more than `maxLevel` strides, or the
index panic of `strides[0]` on an empty slice).  Note the Go code computes
`w` as the plain sum of the strides and never checks it. -/
def newTable (strides : List Nat) : Option Table :=
  if ¬ (∀ s ∈ strides.dropLast, s % 8 = 0) then none
  else if ¬ (∀ s ∈ strides, s ≤ 32) then none
  else if strides.length > maxLevel then none
  else
    match strides with
    | [] => none
    | _ :: _ => some ⟨strides.sum, strides, newTableNode⟩

/-- The per-family `getBits` closure built by `insert`, `delete` and
`Lookup`: `getBits(ss, sl) = getBits4((w-ss)/8, sl, ip4)` for an Is4
address, else `getBits16((w-ss)/8, sl, ip6)`. -/
def getBitsIP (ip : IPAddr) (w : Nat) : Nat → Nat → Nat :=
  match ip with
  | .v4 a => fun ss sl => getBits4 ((w - ss) / 8) sl a
  | .v6 a => fun ss sl => getBits16 ((w - ss) / 8) sl a

/-- The descent loop of Go `insert(x0, w, sl, r)` ("Algorithm 5"), written
as recursion over the remaining stride schedule (`level` becomes the
position in the list, `ss` is the stride-length summation *before* the
current level).  Per iteration: `ss += sl[level]; s = getBits(ss,
sl[level])`; when `Bits ≤ ss` the terminal stride is reached and
`insertSingle(sl[level], s, Bits-ss_prev, r)` runs, with `x.ref++` on
success; otherwise descend to child `fringeIndex(sl[level], s)`, allocating
it (and doing `x.ref++`) when absent.  Running out of schedule, or
allocating a child when the schedule has no next stride
(`newTableNode(sl[level+1])`), is a Go index panic: `none`. -/
def insertLevels (gb : Nat → Nat → Nat) (bits : Nat) (r : Route) :
    List Nat → Nat → TNode → Option (TNode × Bool)
  | [], _, _ => none
  | cur :: rest, ss, x =>
    let s := gb (ss + cur) cur
    if bits ≤ ss + cur then
      match insertSingle cur s (bits - ss) r x.r with
      | none => none
      | some (y, ok) =>
          some (TNode.mk y x.n (if ok then x.ref + 1 else x.ref), ok)
    else
      let i := fringeIndex cur s
      match x.n i with
      | some child =>
          match insertLevels gb bits r rest (ss + cur) child with
          | none => none
          | some (child', ok) =>
              some (TNode.mk x.r (nupd x.n i (some child')) x.ref, ok)
      | none =>
          match rest with
          | [] => none
          | _ :: _ =>
              match insertLevels gb bits r rest (ss + cur) newTableNode with
              | none => none
              | some (child', ok) =>
                  some (TNode.mk x.r (nupd x.n i (some child')) (x.ref + 1), ok)

/-- Go `(x *Table) Insert(r)` / `insert`: the `Bits() == 0` case stores a
default route directly in `root.r[1]` (failing if occupied, with no `ref`
change), everything else runs the descent loop. -/
def insertT (t : Table) (r : Route) : Option (Table × Bool) :=
  if r.ipp.bits = 0 then
    match t.root.r 1 with
    | some _ => some (t, false)
    | none =>
        some (⟨t.w, t.strides,
               TNode.mk (rupd t.root.r 1 (some r)) t.root.n t.root.ref⟩, true)
  else
    match insertLevels (getBitsIP r.ipp.ip t.w) r.ipp.bits r t.strides 0 t.root with
    | none => none
    | some (root', ok) => some (⟨t.w, t.strides, root'⟩, ok)

/-- The loop of Go `searchMultiLevel` ("Algorithm 7"), over the remaining
schedule, carrying the longest-matching-route-so-far `lmr`.  Per level:
`i = fringeIndex(sl[level], getBits(ss, sl[level]))`; descend into a
non-nil child (refreshing `lmr` from `x.r[i]` first), otherwise answer
`x.r[i]` if non-nil, else `lmr`.  Walking past the schedule is a Go index
panic: `none`. -/
def searchLevels (gb : Nat → Nat → Nat) :
    List Nat → Nat → Option Route → TNode → Option (Option Route)
  | [], _, _, _ => none
  | cur :: rest, ss, lmr, x =>
    let i := fringeIndex cur (gb (ss + cur) cur)
    match x.n i with
    | some child =>
        searchLevels gb rest (ss + cur)
          (match x.r i with
           | some v => some v
           | none => lmr) child
    | none =>
        match x.r i with
        | some v => some (some v)
        | none => some lmr

/-- Go `(x *Table) Lookup(ip)`: `searchMultiLevel` seeded with the root
default-route slot `x0.r[1]`; returns `(found, found != nil)`. -/
def lookupT (t : Table) (ip : IPAddr) : Option (Option Route × Bool) :=
  match searchLevels (getBitsIP ip t.w) t.strides 0 (t.root.r 1) t.root with
  | none => none
  | some found => some (found, found.isSome)

/-- The descent-and-cascade of Go `delete(x0, w, sl, ipp)` ("Algorithm 6"),
as recursion over the remaining schedule.  The terminal stride runs
`deleteSingle` and decrements `ref` on success.  On the way back up, the
Go code's explicit parent stack and `free()` (which clears the parent's
`n` slot through `parentPtr`) become: if the updated child's `ref` is 0,
the parent clears the slot and decrements its own `ref` — exactly the
`for level > 0 && x.ref == 0` cascade, with the root (level 0) never
freed. -/
def deleteLevels (gb : Nat → Nat → Nat) (bits : Nat) :
    List Nat → Nat → TNode → Option (TNode × Option Route × Bool)
  | [], _, _ => none
  | cur :: rest, ss, x =>
    let s := gb (ss + cur) cur
    if bits ≤ ss + cur then
      match deleteSingle cur s (bits - ss) x.r with
      | none => none
      | some (y, del, ok) =>
          if ok then some (TNode.mk y x.n (x.ref - 1), del, true)
          else some (x, none, false)
    else
      let i := fringeIndex cur s
      match x.n i with
      | none => some (x, none, false)
      | some child =>
          match deleteLevels gb bits rest (ss + cur) child with
          | none => none
          | some (child', del, ok) =>
              if ok then
                if child'.ref = 0 then
                  some (TNode.mk x.r (nupd x.n i none) (x.ref - 1), del, true)
                else
                  some (TNode.mk x.r (nupd x.n i (some child')) x.ref, del, true)
              else some (x, none, false)

/-- Go `(x *Table) Delete(ipp)`: the `Bits() == 0` case clears `root.r[1]`
directly (no `ref` change), everything else runs the descent loop. -/
def deleteT (t : Table) (p : Pfx) : Option (Table × Option Route × Bool) :=
  if p.bits = 0 then
    match t.root.r 1 with
    | none => some (t, none, false)
    | some r =>
        some (⟨t.w, t.strides,
               TNode.mk (rupd t.root.r 1 none) t.root.n t.root.ref⟩, some r, true)
  else
    match deleteLevels (getBitsIP p.ip t.w) p.bits t.strides 0 t.root with
    | none => none
    | some (root', del, ok) => some (⟨t.w, t.strides, root'⟩, del, ok)

/-! ### Heap model for `Clone`

Go slices are references: `tableNode.r` is a slice header pointing at a
backing array.  `clone` copies the header (`r: x.r`), not the elements, so
a clone and its original share backing arrays.  To express this the heap
model gives every allotment array an identity `rid` and keeps the contents
in a store; everything else mirrors the pure model. -/

/-- The store of allotment-array backing storage: array id to contents,
plus the next fresh id. -/
structure Hp where
  arrs : Nat → RArr
  next : Nat

/-- Update the store at array id `i`. -/
def hupd (h : Nat → RArr) (i : Nat) (v : RArr) : Nat → RArr :=
  fun j => if j = i then v else h j

/-- `tableNode` in the heap model: the `r` slice is the id of its backing
array. -/
inductive HNode where
  | mk (rid : Nat) (n : Nat → Option HNode) (ref : Int) : HNode

def HNode.rid : HNode → Nat
  | .mk rid _ _ => rid

def HNode.n : HNode → Nat → Option HNode
  | .mk _ n _ => n

def HNode.ref : HNode → Int
  | .mk _ _ ref => ref

def hnupd (n : Nat → Option HNode) (i : Nat) (c : Option HNode) : Nat → Option HNode :=
  fun j => if j = i then c else n j

/-- `Table` in the heap model. -/
structure HTable where
  w : Nat
  strides : List Nat
  root : HNode

/-- A fresh table as `NewTable` builds it (for an already validated stride
schedule): one zeroed root array with id 0. -/
def hFresh (strides : List Nat) : Hp × HTable :=
  (⟨fun _ => (fun _ => none), 1⟩, ⟨strides.sum, strides, HNode.mk 0 (fun _ => none) 0⟩)

/-- Go `(x *tableNode) clone()` (fuel bounds the recursion depth; the trie
is at most `maxLevel` levels deep, so fuel `maxLevel + 1` is never
exhausted — at 0 the node is returned unchanged).  The clone keeps the same
`r` slice header — the same `rid`, sharing the backing array — and `ref`;
it allocates a fresh `n` array whose entries are recursively cloned
children (`clone` of a nil child is nil).  `parentPtr` is copied unchanged
in Go (pointing into the *original* parent's `n` array); it is not
represented here. -/
def cloneH : Nat → HNode → HNode
  | 0, x => x
  | fuel + 1, x => HNode.mk x.rid (fun j => (x.n j).map (cloneH fuel)) x.ref

/-- Go `(x *Table) Clone()`: clones the root, keeps `w` and `strides`.  The
store is untouched: no backing array of any allotment array is copied. -/
def cloneT (t : HTable) : HTable :=
  ⟨t.w, t.strides, cloneH (maxLevel + 1) t.root⟩

/-- `insert`'s descent loop in the heap model (see `insertLevels`): the
terminal `insertSingle` reads and writes the backing array of the current
node through the store. -/
def hInsertLevels (gb : Nat → Nat → Nat) (bits : Nat) (r : Route) :
    List Nat → Nat → Hp → HNode → Option (Hp × HNode × Bool)
  | [], _, _, _ => none
  | cur :: rest, ss, hp, x =>
    let s := gb (ss + cur) cur
    if bits ≤ ss + cur then
      match insertSingle cur s (bits - ss) r (hp.arrs x.rid) with
      | none => none
      | some (y, ok) =>
          some (⟨hupd hp.arrs x.rid y, hp.next⟩,
                HNode.mk x.rid x.n (if ok then x.ref + 1 else x.ref), ok)
    else
      let i := fringeIndex cur s
      match x.n i with
      | some child =>
          match hInsertLevels gb bits r rest (ss + cur) hp child with
          | none => none
          | some (hp', child', ok) =>
              some (hp', HNode.mk x.rid (hnupd x.n i (some child')) x.ref, ok)
      | none =>
          match rest with
          | [] => none
          | _ :: _ =>
              let child := HNode.mk hp.next (fun _ => none) 0
              let hp1 : Hp := ⟨hupd hp.arrs hp.next (fun _ => none), hp.next + 1⟩
              match hInsertLevels gb bits r rest (ss + cur) hp1 child with
              | none => none
              | some (hp', child', ok) =>
                  some (hp', HNode.mk x.rid (hnupd x.n i (some child')) (x.ref + 1), ok)

/-- Go `Insert` in the heap model. -/
def hInsertT (hp : Hp) (t : HTable) (r : Route) : Option (Hp × HTable × Bool) :=
  if r.ipp.bits = 0 then
    match hp.arrs t.root.rid 1 with
    | some _ => some (hp, t, false)
    | none =>
        some (⟨hupd hp.arrs t.root.rid (rupd (hp.arrs t.root.rid) 1 (some r)), hp.next⟩,
              t, true)
  else
    match hInsertLevels (getBitsIP r.ipp.ip t.w) r.ipp.bits r t.strides 0 hp t.root with
    | none => none
    | some (hp', root', ok) => some (hp', ⟨t.w, t.strides, root'⟩, ok)

/-- `searchMultiLevel`'s loop in the heap model (read-only in the store). -/
def hSearchLevels (hp : Hp) (gb : Nat → Nat → Nat) :
    List Nat → Nat → Option Route → HNode → Option (Option Route)
  | [], _, _, _ => none
  | cur :: rest, ss, lmr, x =>
    let i := fringeIndex cur (gb (ss + cur) cur)
    match x.n i with
    | some child =>
        hSearchLevels hp gb rest (ss + cur)
          (match hp.arrs x.rid i with
           | some v => some v
           | none => lmr) child
    | none =>
        match hp.arrs x.rid i with
        | some v => some (some v)
        | none => some lmr

/-- Go `Lookup` in the heap model. -/
def hLookupT (hp : Hp) (t : HTable) (ip : IPAddr) : Option (Option Route × Bool) :=
  match hSearchLevels hp (getBitsIP ip t.w) t.strides 0 (hp.arrs t.root.rid 1) t.root with
  | none => none
  | some found => some (found, found.isSome)

/-! ### Concrete scenarios referenced by the claim checks -/

/-- The all-empty allotment array. -/
def emptyRArr : RArr := fun _ => none

/-- The paper's 4-bit example route 12/2 (`route4b{12, 2}` of the tests). -/
def fig3r1 : Route := ⟨⟨.v4 ⟨0, 0, 0, 12⟩, 2⟩, 1⟩

/-- The paper's 4-bit example route 14/3. -/
def fig3r2 : Route := ⟨⟨.v4 ⟨0, 0, 0, 14⟩, 3⟩, 2⟩

/-- The paper's 4-bit example route 8/1. -/
def fig3r3 : Route := ⟨⟨.v4 ⟨0, 0, 0, 8⟩, 1⟩, 3⟩

/-- Figure 3-1: insert 12/2 into an empty width-4 single-level array. -/
def fig3s1 : Option (RArr × Bool) := insertSingle 4 12 2 fig3r1 emptyRArr

/-- Figure 3-2: then insert 14/3. -/
def fig3s2 : Option (RArr × Bool) := fig3s1.bind fun p => insertSingle 4 14 3 fig3r2 p.1

/-- Figure 3-3: then insert 8/1. -/
def fig3s3 : Option (RArr × Bool) := fig3s2.bind fun p => insertSingle 4 8 1 fig3r3 p.1

/-- Then delete 8/1 again. -/
def fig3s4 : Option (RArr × Option Route × Bool) :=
  fig3s3.bind fun p => deleteSingle 4 8 1 p.1

/-- Expected array after inserting 12/2. -/
def fig3exp1 : Nat → Option Route := fun i =>
  if i = 7 ∨ i = 14 ∨ i = 15 ∨ i = 28 ∨ i = 29 ∨ i = 30 ∨ i = 31 then some fig3r1 else none

/-- Expected array after additionally inserting 14/3. -/
def fig3exp2 : Nat → Option Route := fun i =>
  if i = 15 ∨ i = 30 ∨ i = 31 then some fig3r2 else fig3exp1 i

/-- Expected array after additionally inserting 8/1. -/
def fig3exp3 : Nat → Option Route := fun i =>
  if i = 3 ∨ i = 6 ∨ i = 12 ∨ i = 13 ∨ i = 24 ∨ i = 25 ∨ i = 26 ∨ i = 27 then some fig3r3
  else fig3exp2 i

/-- A default route 0.0.0.0/0 with metadata 10. -/
def dflt0 : Route := ⟨⟨.v4 ⟨0, 0, 0, 0⟩, 0⟩, 10⟩

/-- The route 0.0.0.0/1 with metadata 11. -/
def half0 : Route := ⟨⟨.v4 ⟨0, 0, 0, 0⟩, 1⟩, 11⟩

/-- A host route 0.0.0.2/32 with metadata 20. -/
def r32 : Route := ⟨⟨.v4 ⟨0, 0, 0, 2⟩, 32⟩, 20⟩

/-- A fresh IPv4 table with the stride schedule 8,8,8,8. -/
def tabA : Option Table := newTable [8, 8, 8, 8]

/-- ... after `Insert` of the default route. -/
def tabB : Option Table := tabA.bind fun t => (insertT t dflt0).map Prod.fst

/-- ... after additionally `Insert` of 0.0.0.0/1. -/
def tabC : Option Table := tabB.bind fun t => (insertT t half0).map Prod.fst

/-- ... after `Delete` of 0.0.0.0/1 again. -/
def tabD : Option Table := tabC.bind fun t => (deleteT t ⟨.v4 ⟨0, 0, 0, 0⟩, 1⟩).map Prod.fst

/-- ... after finally `Delete` of the default route: every route ever
inserted has been deleted again. -/
def tabE : Option Table := tabD.bind fun t => (deleteT t ⟨.v4 ⟨0, 0, 0, 0⟩, 0⟩).map Prod.fst

/-- A fresh table with the single-stride schedule 32 (accepted by
`NewTable`: 32 ∣ nothing required of the last stride, 32 ≤ 32, one level,
sum 32). -/
def tab32 : Option Table := newTable [32]

/-- Schedule 32: insert 0.0.0.2/32 then 0.0.0.0/1. -/
def tabAB : Option Table :=
  (tab32.bind fun t => (insertT t r32).map Prod.fst).bind fun t =>
    (insertT t half0).map Prod.fst

/-- Schedule 32: insert 0.0.0.0/1 then 0.0.0.2/32. -/
def tabBA : Option Table :=
  (tab32.bind fun t => (insertT t half0).map Prod.fst).bind fun t =>
    (insertT t r32).map Prod.fst

/-- Schedule 32: after both inserts, delete the prefix 0.0.0.2/32. -/
def tabABd1 : Option (Table × Option Route × Bool) :=
  tabAB.bind fun t => deleteT t ⟨.v4 ⟨0, 0, 0, 2⟩, 32⟩

/-- The heap-model fresh table and the insert of 0.0.0.0/1 into its clone. -/
def hpFresh : Hp × HTable := hFresh [8, 8, 8, 8]

/-- Insert into the *clone* of the fresh table, in the heap model. -/
def hpCloneIns : Option (Hp × HTable × Bool) :=
  hInsertT hpFresh.1 (cloneT hpFresh.2) half0

/-- Big-endian 4-byte packing of a 32-bit value. -/
def toBytes4 (a : Nat) : Bytes4 :=
  ⟨a / 2 ^ 24 % 256, a / 2 ^ 16 % 256, a / 2 ^ 8 % 256, a % 256⟩

/-- Big-endian 16-byte packing of a 128-bit value. -/
def toBytes16 (a : Nat) : Bytes16 :=
  ⟨a / 2 ^ 120 % 256, a / 2 ^ 112 % 256, a / 2 ^ 104 % 256, a / 2 ^ 96 % 256,
   a / 2 ^ 88 % 256, a / 2 ^ 80 % 256, a / 2 ^ 72 % 256, a / 2 ^ 64 % 256,
   a / 2 ^ 56 % 256, a / 2 ^ 48 % 256, a / 2 ^ 40 % 256, a / 2 ^ 32 % 256,
   a / 2 ^ 24 % 256, a / 2 ^ 16 % 256, a / 2 ^ 8 % 256, a % 256⟩

/-- Modelled from the spec, section 4.1: the extractor returns the
stride_width bits of a W-bit big-endian address starting at bit position
stride_offset counted from the MSB, placed in the low stride_width bits of
the result. -/
def specBits (W so sw a : Nat) : Nat := (a >>> (W - (so + sw))) % 2 ^ sw


/-- The exact-prefix occupancy test the insert descent performs: descend by
fringe index while more levels are needed, and at the terminal stride check
whether the base-index slot holds a route with exactly this prefix
(compared by prefix equality, as `insertSingle` does, not by `Equals`). -/
def storedLevels (gb : Nat → Nat → Nat) (p : Pfx) : List Nat → Nat → TNode → Bool
  | [], _, _ => false
  | cur :: rest, ss, x =>
    if p.bits ≤ ss + cur then
      match x.r (baseIndex cur (gb (ss + cur) cur) (p.bits - ss)) with
      | some v => decide (v.ipp = p)
      | none => false
    else
      match x.n (fringeIndex cur (gb (ss + cur) cur)) with
      | some child => storedLevels gb p rest (ss + cur) child
      | none => false

/-- A prefix is stored in a table: for a default route, slot 1 of the root
holds a route with that prefix; otherwise the terminal slot of the descent
does. -/
def storedT (t : Table) (p : Pfx) : Bool :=
  if p.bits = 0 then
    match t.root.r 1 with
    | some v => decide (v.ipp = p)
    | none => false
  else storedLevels (getBitsIP p.ip t.w) p t.strides 0 t.root

/-- The table after inserting 0.0.0.0/1 into a fresh 8,8,8,8 table
(concrete instance used by witnesses). -/
def tabHalf : Table :=
  (tabA.bind fun t => (insertT t half0).map Prod.fst).getD ⟨0, [], newTableNode⟩


/-- Index i lies in the heap-embedded subtree rooted at base index b:
some number of halvings of i gives b. -/
def inSub (b i : Nat) : Prop := ∃ k, i / 2 ^ k = b

/-- The indices whose guard the call allot(sfi, b, q, ·) evaluates: the
descent from b that continues below an index only while its slot holds
exactly q and it is below the smallest fringe index. -/
inductive Reach (rs : RArr) (q : Option Route) (sfi b : Nat) : Nat → Prop
  | self : Reach rs q sfi b b
  | left {i : Nat} : Reach rs q sfi b i → rs i = q → i < sfi → Reach rs q sfi b (2 * i)
  | right {i : Nat} : Reach rs q sfi b i → rs i = q → i < sfi → Reach rs q sfi b (2 * i + 1)

/-- Downward non-nil-ness of an allotment array below the fringe: every
occupied slot from base index 2 on that still has children inside the
stride has both children occupied.  Slot 1 is exempt: a default route is
written there without allotment. -/
def DN (sfi : Nat) (rs : RArr) : Prop :=
  ∀ i, 2 ≤ i → i < sfi → (rs i).isSome → (rs (2 * i)).isSome ∧ (rs (2 * i + 1)).isSome


/-- Downward non-nil-ness at every node of a trie, following the stride
schedule (each node's smallest fringe index is the wrapped `1 << stride` of
its level). -/
def allDN : List Nat → TNode → Prop
  | [], _ => True
  | cur :: rest, x =>
      DN ((1 <<< cur) % 2 ^ 32) x.r ∧ ∀ i c, x.n i = some c → allDN rest c

/-- `NodeAt x sl y cur`: y is a node of the trie rooted at x (whose level
schedule is sl), and cur is the stride width at y's level. -/
inductive NodeAt : TNode → List Nat → TNode → Nat → Prop
  | here (x : TNode) (cur : Nat) (rest : List Nat) : NodeAt x (cur :: rest) x cur
  | child (x : TNode) (cur : Nat) (rest : List Nat) (i : Nat) (c y : TNode) (w : Nat) :
      x.n i = some c → NodeAt c rest y w → NodeAt x (cur :: rest) y w

/-- Tables reachable from `NewTable` by the public `Insert` and `Delete`
operations (a `none` result is a Go panic and produces no next state). -/
inductive ReachableT : Table → Prop
  | init (strides : List Nat) (t : Table) : newTable strides = some t → ReachableT t
  | ins (t t' : Table) (r : Route) (ok : Bool) :
      ReachableT t → insertT t r = some (t', ok) → ReachableT t'
  | del (t t' : Table) (p : Pfx) (d : Option Route) (ok : Bool) :
      ReachableT t → deleteT t p = some (t', d, ok) → ReachableT t'

/-! ### Claim checks -/

set_option maxRecDepth 400000

/-- C8: starting from an empty single-level array of stride width 4,
inserting 12/2 fills exactly the base indices 7, 14, 15, 28, 29, 30, 31;
then inserting 14/3 overwrites exactly 15, 30, 31; then inserting 8/1
overwrites exactly 3, 6, 12, 13, 24, 25, 26, 27; and deleting 8/1 again
returns the deleted route and restores the array to exactly the state after
the first two inserts.  Each step reports success. -/
theorem c8_allotment_figures :
    (∀ i : Fin 32, fig3s1.map (fun p => (p.1 i.val, p.2)) = some (fig3exp1 i.val, true)) ∧
    (∀ i : Fin 32, fig3s2.map (fun p => (p.1 i.val, p.2)) = some (fig3exp2 i.val, true)) ∧
    (∀ i : Fin 32, fig3s3.map (fun p => (p.1 i.val, p.2)) = some (fig3exp3 i.val, true)) ∧
    (∀ i : Fin 32, fig3s4.map (fun p => (p.1 i.val, p.2.1, p.2.2)) =
      some (fig3exp2 i.val, some fig3r3, true)) := by
  decide

/-- C1: evaluation of the code at the failing input.  On a fresh valid
8,8,8,8 IPv4 table: Insert 0.0.0.0/0, Insert 0.0.0.0/1, Delete 0.0.0.0/1,
Delete 0.0.0.0/0 — all four operations succeed (the two Deletes return
exactly the two inserted routes), so no stored prefix remains; yet Lookup
of 0.0.0.1 still returns the long-deleted default route instead of (empty,
false).  Deleting 0.0.0.0/1 re-allots the default route from `r[1]` into
the slots below base index 2, and deleting the default only clears `r[1]`,
leaving those stale copies behind. -/
theorem c1_code_evaluation :
    (tabA.bind fun t => (insertT t dflt0).map Prod.snd) = some true ∧
    (tabB.bind fun t => (insertT t half0).map Prod.snd) = some true ∧
    (tabC.bind fun t => (deleteT t ⟨.v4 ⟨0, 0, 0, 0⟩, 1⟩).map fun p => (p.2.1, p.2.2)) =
      some (some half0, true) ∧
    (tabD.bind fun t => (deleteT t ⟨.v4 ⟨0, 0, 0, 0⟩, 0⟩).map fun p => (p.2.1, p.2.2)) =
      some (some dflt0, true) ∧
    (tabE.bind fun t => lookupT t (.v4 ⟨0, 0, 0, 1⟩)) = some (some dflt0, true) := by
  decide

/-- C3: evaluation of the code at the failing input.  Let T be the valid
8,8,8,8 table holding only the default route (slot 2 of the root allotment
array is empty in T).  Inserting the fresh route 0.0.0.0/1 and then
deleting its prefix succeeds and returns that route, but afterwards slot 2
of the root array holds the default route — the table is not structurally
equal to T: the delete re-allotted `r[1]` into the subtree of base index 2,
which an insert of the default route never touched. -/
theorem c3_code_evaluation :
    (tabB.map fun t => t.root.r 2) = some none ∧
    (tabB.bind fun t => (insertT t half0).map Prod.snd) = some true ∧
    (tabC.bind fun t => (deleteT t ⟨.v4 ⟨0, 0, 0, 0⟩, 1⟩).map fun p => (p.2.1, p.2.2)) =
      some (some half0, true) ∧
    (tabD.map fun t => t.root.r 2) = some (some dflt0) := by
  decide

/-- C2: evaluation of the code at the failing input.  In the heap model
(which tracks backing-array identity), Lookup of 0.0.0.1 in a fresh
8,8,8,8 table finds nothing; after inserting 0.0.0.0/1 into a Clone of
that table, the same Lookup on the *original* returns the route inserted
into the clone: `clone` copies the slice header `r: x.r`, so original and
clone share one allotment array, and `parentPtr` is likewise carried over
unchanged rather than rebound. -/
theorem c2_code_evaluation :
    hLookupT hpFresh.1 hpFresh.2 (.v4 ⟨0, 0, 0, 1⟩) = some (none, false) ∧
    hpCloneIns.map (fun q => q.2.2) = some true ∧
    (hpCloneIns.bind fun q => hLookupT q.1 hpFresh.2 (.v4 ⟨0, 0, 0, 1⟩)) =
      some (some half0, true) := by
  decide

/-- C4 fails as stated: the single-stride schedule 32 passes every
`NewTable` check and sums to 32, yet `1 << 32` wraps to 0 in `uint32`, so
the base indices of 0.0.0.2/32 and 0.0.0.0/1 collide at 2.  Inserting the
two distinct prefixes in the two orders (all four inserts report success)
yields tables whose Lookup of 0.0.0.2 returns different routes — the last
insert wins the shared slot. -/
theorem c4_counterexample :
    r32.ipp ≠ half0.ipp ∧
    (tab32.bind fun t => (insertT t r32).map Prod.snd) = some true ∧
    ((tab32.bind fun t => (insertT t r32).map Prod.fst).bind fun t =>
      (insertT t half0).map Prod.snd) = some true ∧
    (tab32.bind fun t => (insertT t half0).map Prod.snd) = some true ∧
    ((tab32.bind fun t => (insertT t half0).map Prod.fst).bind fun t =>
      (insertT t r32).map Prod.snd) = some true ∧
    (tabAB.bind fun t => lookupT t (.v4 ⟨0, 0, 0, 2⟩)) = some (some half0, true) ∧
    (tabBA.bind fun t => lookupT t (.v4 ⟨0, 0, 0, 2⟩)) = some (some r32, true) := by
  decide

/-- C7 fails as stated: on the `NewTable`-accepted single-stride schedule
32, insert 0.0.0.2/32 and 0.0.0.0/1 (both succeed — their wrapped base
indices collide at slot 2), then delete the same two prefixes in that
order.  The first delete succeeds (returning the 0.0.0.0/1 route that had
overwritten the shared slot), the second finds the slot empty and fails, so
after deleting exactly the inserted prefixes the root's reference count is
1, not 0. -/
theorem c7_counterexample :
    (tab32.bind fun t => (insertT t r32).map Prod.snd) = some true ∧
    ((tab32.bind fun t => (insertT t r32).map Prod.fst).bind fun t =>
      (insertT t half0).map Prod.snd) = some true ∧
    tabABd1.map (fun p => (p.2.1, p.2.2)) = some (some half0, true) ∧
    (tabABd1.bind fun p => (deleteT p.1 ⟨.v4 ⟨0, 0, 0, 0⟩, 1⟩).map fun q =>
      (q.2.2, q.1.root.ref)) = some (false, 1) := by
  decide

/-- C6 fails as stated: the stride schedule 8,8 passes every check
`NewTable` actually performs even though its sum is 16, which is neither 32
nor 128 — the sum is never validated, so construction succeeds on an input
the claim says must fail. -/
theorem c6_counterexample :
    (newTable [8, 8]).isSome = true ∧
    ([8, 8] : List Nat).sum ≠ 32 ∧ ([8, 8] : List Nat).sum ≠ 128 := by
  decide


lemma and_mask32 (sw : Nat) (hsw : sw ≤ 32) (v : Nat) :
    v &&& ((2 ^ sw - 1) % 2 ^ 32) = v % 2 ^ sw := by
  have h1 : (2 : Nat) ^ sw ≤ 2 ^ 32 := Nat.pow_le_pow_right (by norm_num) hsw
  have h2 : ((2 : Nat) ^ sw - 1) % 2 ^ 32 = 2 ^ sw - 1 := Nat.mod_eq_of_lt (by omega)
  rw [h2, Nat.and_pow_two_sub_one_eq_mod]

lemma getBits4_eq (a sw k : Nat) (ha : a < 2 ^ 32) (hsw : sw ≤ 32) (hk : k ≤ 4) :
    getBits4 k sw (toBytes4 a) = (a >>> (8 * k)) % 2 ^ sw := by
  have hm := and_mask32 sw hsw
  have hsr : ∀ m : Nat, a >>> m = a / 2 ^ m := fun m => Nat.shiftRight_eq_div_pow a m
  interval_cases k
  · have e : getBits4 0 sw (toBytes4 a) =
        (a % 256 + ((a / 2 ^ 8 % 256) <<< 8) + ((a / 2 ^ 16 % 256) <<< 16) +
          ((a / 2 ^ 24 % 256) <<< 24)) &&& ((2 ^ sw - 1) % 2 ^ 32) := rfl
    rw [e, hm, hsr]
    exact congrArg (fun z => z % 2 ^ sw) (by simp [Nat.shiftLeft_eq]; omega)
  · have e : getBits4 1 sw (toBytes4 a) =
        (a / 2 ^ 8 % 256 + ((a / 2 ^ 16 % 256) <<< 8) + ((a / 2 ^ 24 % 256) <<< 16)) &&&
          ((2 ^ sw - 1) % 2 ^ 32) := rfl
    rw [e, hm, hsr]
    exact congrArg (fun z => z % 2 ^ sw) (by simp [Nat.shiftLeft_eq]; omega)
  · have e : getBits4 2 sw (toBytes4 a) =
        (a / 2 ^ 16 % 256 + ((a / 2 ^ 24 % 256) <<< 8)) &&& ((2 ^ sw - 1) % 2 ^ 32) := rfl
    rw [e, hm, hsr]
    exact congrArg (fun z => z % 2 ^ sw) (by simp [Nat.shiftLeft_eq]; omega)
  · have e : getBits4 3 sw (toBytes4 a) =
        (a / 2 ^ 24 % 256) &&& ((2 ^ sw - 1) % 2 ^ 32) := rfl
    rw [e, hm, hsr]
    exact congrArg (fun z => z % 2 ^ sw) (by omega)
  · have e : getBits4 4 sw (toBytes4 a) = 0 &&& ((2 ^ sw - 1) % 2 ^ 32) := rfl
    rw [e, hm, hsr]
    exact congrArg (fun z => z % 2 ^ sw) (by omega)

lemma getBits16_eq (a sw k : Nat) (ha : a < 2 ^ 128) (hsw : sw ≤ 32) (hk : k ≤ 16) :
    getBits16 k sw (toBytes16 a) = (a >>> (8 * k)) % 2 ^ sw := by
  have hm := and_mask32 sw hsw
  have hsr : ∀ m : Nat, a >>> m = a / 2 ^ m := fun m => Nat.shiftRight_eq_div_pow a m
  have hdd : ∀ x : Nat, x % 2 ^ 32 % 2 ^ sw = x % 2 ^ sw :=
    fun x => Nat.mod_mod_of_dvd x (pow_dvd_pow 2 hsw)
  interval_cases k
  · have e : getBits16 0 sw (toBytes16 a) =
        (a % 256 + ((a / 2 ^ 8 % 256) <<< 8) + ((a / 2 ^ 16 % 256) <<< 16) + ((a / 2 ^ 24 % 256) <<< 24)) &&& ((2 ^ sw - 1) % 2 ^ 32) := rfl
    rw [e, hm, hsr]
    rw [show (a % 256 + ((a / 2 ^ 8 % 256) <<< 8) + ((a / 2 ^ 16 % 256) <<< 16) + ((a / 2 ^ 24 % 256) <<< 24)) = a / 2 ^ (8 * 0) % 2 ^ 32 from by simp [Nat.shiftLeft_eq]; omega, hdd]
  · have e : getBits16 1 sw (toBytes16 a) =
        (a / 2 ^ 8 % 256 + ((a / 2 ^ 16 % 256) <<< 8) + ((a / 2 ^ 24 % 256) <<< 16) + ((a / 2 ^ 32 % 256) <<< 24)) &&& ((2 ^ sw - 1) % 2 ^ 32) := rfl
    rw [e, hm, hsr]
    rw [show (a / 2 ^ 8 % 256 + ((a / 2 ^ 16 % 256) <<< 8) + ((a / 2 ^ 24 % 256) <<< 16) + ((a / 2 ^ 32 % 256) <<< 24)) = a / 2 ^ (8 * 1) % 2 ^ 32 from by simp [Nat.shiftLeft_eq]; omega, hdd]
  · have e : getBits16 2 sw (toBytes16 a) =
        (a / 2 ^ 16 % 256 + ((a / 2 ^ 24 % 256) <<< 8) + ((a / 2 ^ 32 % 256) <<< 16) + ((a / 2 ^ 40 % 256) <<< 24)) &&& ((2 ^ sw - 1) % 2 ^ 32) := rfl
    rw [e, hm, hsr]
    rw [show (a / 2 ^ 16 % 256 + ((a / 2 ^ 24 % 256) <<< 8) + ((a / 2 ^ 32 % 256) <<< 16) + ((a / 2 ^ 40 % 256) <<< 24)) = a / 2 ^ (8 * 2) % 2 ^ 32 from by simp [Nat.shiftLeft_eq]; omega, hdd]
  · have e : getBits16 3 sw (toBytes16 a) =
        (a / 2 ^ 24 % 256 + ((a / 2 ^ 32 % 256) <<< 8) + ((a / 2 ^ 40 % 256) <<< 16) + ((a / 2 ^ 48 % 256) <<< 24)) &&& ((2 ^ sw - 1) % 2 ^ 32) := rfl
    rw [e, hm, hsr]
    rw [show (a / 2 ^ 24 % 256 + ((a / 2 ^ 32 % 256) <<< 8) + ((a / 2 ^ 40 % 256) <<< 16) + ((a / 2 ^ 48 % 256) <<< 24)) = a / 2 ^ (8 * 3) % 2 ^ 32 from by simp [Nat.shiftLeft_eq]; omega, hdd]
  · have e : getBits16 4 sw (toBytes16 a) =
        (a / 2 ^ 32 % 256 + ((a / 2 ^ 40 % 256) <<< 8) + ((a / 2 ^ 48 % 256) <<< 16) + ((a / 2 ^ 56 % 256) <<< 24)) &&& ((2 ^ sw - 1) % 2 ^ 32) := rfl
    rw [e, hm, hsr]
    rw [show (a / 2 ^ 32 % 256 + ((a / 2 ^ 40 % 256) <<< 8) + ((a / 2 ^ 48 % 256) <<< 16) + ((a / 2 ^ 56 % 256) <<< 24)) = a / 2 ^ (8 * 4) % 2 ^ 32 from by simp [Nat.shiftLeft_eq]; omega, hdd]
  · have e : getBits16 5 sw (toBytes16 a) =
        (a / 2 ^ 40 % 256 + ((a / 2 ^ 48 % 256) <<< 8) + ((a / 2 ^ 56 % 256) <<< 16) + ((a / 2 ^ 64 % 256) <<< 24)) &&& ((2 ^ sw - 1) % 2 ^ 32) := rfl
    rw [e, hm, hsr]
    rw [show (a / 2 ^ 40 % 256 + ((a / 2 ^ 48 % 256) <<< 8) + ((a / 2 ^ 56 % 256) <<< 16) + ((a / 2 ^ 64 % 256) <<< 24)) = a / 2 ^ (8 * 5) % 2 ^ 32 from by simp [Nat.shiftLeft_eq]; omega, hdd]
  · have e : getBits16 6 sw (toBytes16 a) =
        (a / 2 ^ 48 % 256 + ((a / 2 ^ 56 % 256) <<< 8) + ((a / 2 ^ 64 % 256) <<< 16) + ((a / 2 ^ 72 % 256) <<< 24)) &&& ((2 ^ sw - 1) % 2 ^ 32) := rfl
    rw [e, hm, hsr]
    rw [show (a / 2 ^ 48 % 256 + ((a / 2 ^ 56 % 256) <<< 8) + ((a / 2 ^ 64 % 256) <<< 16) + ((a / 2 ^ 72 % 256) <<< 24)) = a / 2 ^ (8 * 6) % 2 ^ 32 from by simp [Nat.shiftLeft_eq]; omega, hdd]
  · have e : getBits16 7 sw (toBytes16 a) =
        (a / 2 ^ 56 % 256 + ((a / 2 ^ 64 % 256) <<< 8) + ((a / 2 ^ 72 % 256) <<< 16) + ((a / 2 ^ 80 % 256) <<< 24)) &&& ((2 ^ sw - 1) % 2 ^ 32) := rfl
    rw [e, hm, hsr]
    rw [show (a / 2 ^ 56 % 256 + ((a / 2 ^ 64 % 256) <<< 8) + ((a / 2 ^ 72 % 256) <<< 16) + ((a / 2 ^ 80 % 256) <<< 24)) = a / 2 ^ (8 * 7) % 2 ^ 32 from by simp [Nat.shiftLeft_eq]; omega, hdd]
  · have e : getBits16 8 sw (toBytes16 a) =
        (a / 2 ^ 64 % 256 + ((a / 2 ^ 72 % 256) <<< 8) + ((a / 2 ^ 80 % 256) <<< 16) + ((a / 2 ^ 88 % 256) <<< 24)) &&& ((2 ^ sw - 1) % 2 ^ 32) := rfl
    rw [e, hm, hsr]
    rw [show (a / 2 ^ 64 % 256 + ((a / 2 ^ 72 % 256) <<< 8) + ((a / 2 ^ 80 % 256) <<< 16) + ((a / 2 ^ 88 % 256) <<< 24)) = a / 2 ^ (8 * 8) % 2 ^ 32 from by simp [Nat.shiftLeft_eq]; omega, hdd]
  · have e : getBits16 9 sw (toBytes16 a) =
        (a / 2 ^ 72 % 256 + ((a / 2 ^ 80 % 256) <<< 8) + ((a / 2 ^ 88 % 256) <<< 16) + ((a / 2 ^ 96 % 256) <<< 24)) &&& ((2 ^ sw - 1) % 2 ^ 32) := rfl
    rw [e, hm, hsr]
    rw [show (a / 2 ^ 72 % 256 + ((a / 2 ^ 80 % 256) <<< 8) + ((a / 2 ^ 88 % 256) <<< 16) + ((a / 2 ^ 96 % 256) <<< 24)) = a / 2 ^ (8 * 9) % 2 ^ 32 from by simp [Nat.shiftLeft_eq]; omega, hdd]
  · have e : getBits16 10 sw (toBytes16 a) =
        (a / 2 ^ 80 % 256 + ((a / 2 ^ 88 % 256) <<< 8) + ((a / 2 ^ 96 % 256) <<< 16) + ((a / 2 ^ 104 % 256) <<< 24)) &&& ((2 ^ sw - 1) % 2 ^ 32) := rfl
    rw [e, hm, hsr]
    rw [show (a / 2 ^ 80 % 256 + ((a / 2 ^ 88 % 256) <<< 8) + ((a / 2 ^ 96 % 256) <<< 16) + ((a / 2 ^ 104 % 256) <<< 24)) = a / 2 ^ (8 * 10) % 2 ^ 32 from by simp [Nat.shiftLeft_eq]; omega, hdd]
  · have e : getBits16 11 sw (toBytes16 a) =
        (a / 2 ^ 88 % 256 + ((a / 2 ^ 96 % 256) <<< 8) + ((a / 2 ^ 104 % 256) <<< 16) + ((a / 2 ^ 112 % 256) <<< 24)) &&& ((2 ^ sw - 1) % 2 ^ 32) := rfl
    rw [e, hm, hsr]
    rw [show (a / 2 ^ 88 % 256 + ((a / 2 ^ 96 % 256) <<< 8) + ((a / 2 ^ 104 % 256) <<< 16) + ((a / 2 ^ 112 % 256) <<< 24)) = a / 2 ^ (8 * 11) % 2 ^ 32 from by simp [Nat.shiftLeft_eq]; omega, hdd]
  · have e : getBits16 12 sw (toBytes16 a) =
        (a / 2 ^ 96 % 256 + ((a / 2 ^ 104 % 256) <<< 8) + ((a / 2 ^ 112 % 256) <<< 16) + ((a / 2 ^ 120 % 256) <<< 24)) &&& ((2 ^ sw - 1) % 2 ^ 32) := rfl
    rw [e, hm, hsr]
    rw [show (a / 2 ^ 96 % 256 + ((a / 2 ^ 104 % 256) <<< 8) + ((a / 2 ^ 112 % 256) <<< 16) + ((a / 2 ^ 120 % 256) <<< 24)) = a / 2 ^ (8 * 12) % 2 ^ 32 from by simp [Nat.shiftLeft_eq]; omega, hdd]
  · have e : getBits16 13 sw (toBytes16 a) =
        (a / 2 ^ 104 % 256 + ((a / 2 ^ 112 % 256) <<< 8) + ((a / 2 ^ 120 % 256) <<< 16)) &&& ((2 ^ sw - 1) % 2 ^ 32) := rfl
    rw [e, hm, hsr]
    rw [show (a / 2 ^ 104 % 256 + ((a / 2 ^ 112 % 256) <<< 8) + ((a / 2 ^ 120 % 256) <<< 16)) = a / 2 ^ (8 * 13) % 2 ^ 32 from by simp [Nat.shiftLeft_eq]; omega, hdd]
  · have e : getBits16 14 sw (toBytes16 a) =
        (a / 2 ^ 112 % 256 + ((a / 2 ^ 120 % 256) <<< 8)) &&& ((2 ^ sw - 1) % 2 ^ 32) := rfl
    rw [e, hm, hsr]
    rw [show (a / 2 ^ 112 % 256 + ((a / 2 ^ 120 % 256) <<< 8)) = a / 2 ^ (8 * 14) % 2 ^ 32 from by simp [Nat.shiftLeft_eq]; omega, hdd]
  · have e : getBits16 15 sw (toBytes16 a) =
        (a / 2 ^ 120 % 256) &&& ((2 ^ sw - 1) % 2 ^ 32) := rfl
    rw [e, hm, hsr]
    rw [show (a / 2 ^ 120 % 256) = a / 2 ^ (8 * 15) % 2 ^ 32 from by simp [Nat.shiftLeft_eq]; omega, hdd]
  · have e : getBits16 16 sw (toBytes16 a) =
        (0) &&& ((2 ^ sw - 1) % 2 ^ 32) := rfl
    rw [e, hm, hsr]
    rw [show (0) = a / 2 ^ (8 * 16) % 2 ^ 32 from by simp [Nat.shiftLeft_eq]; omega, hdd]

/-- C9: the bit extractors are the pure MSB-offset extraction the spec
describes.  For every value packed big-endian into 4 (IPv4, W = 32) or 16
(IPv6, W = 128) bytes, every byte-aligned cumulative stride boundary ss and
stride width sw (as produced by the per-family closures, which pass byte
offset (w-ss)/8), the extractor returns the sw bits starting at MSB bit
position ss - sw, in the low sw bits of the result — including the case
where the skipped byte count consumes the whole address, which reads as
0. -/
theorem c9_bit_extraction :
    (∀ a ss sw : Nat, a < 2 ^ 32 → ss ≤ 32 → 8 ∣ (32 - ss) → sw ≤ ss → sw ≤ 32 →
      getBitsIP (.v4 (toBytes4 a)) 32 ss sw = specBits 32 (ss - sw) sw a) ∧
    (∀ a ss sw : Nat, a < 2 ^ 128 → ss ≤ 128 → 8 ∣ (128 - ss) → sw ≤ ss → sw ≤ 32 →
      getBitsIP (.v6 (toBytes16 a)) 128 ss sw = specBits 128 (ss - sw) sw a) := by
  constructor
  · intro a ss sw ha hss hdvd hsw1 hsw2
    have e : getBitsIP (.v4 (toBytes4 a)) 32 ss sw =
        getBits4 ((32 - ss) / 8) sw (toBytes4 a) := rfl
    rw [e, getBits4_eq a sw _ ha hsw2 (by omega)]
    unfold specBits
    congr 2
    omega
  · intro a ss sw ha hss hdvd hsw1 hsw2
    have e : getBitsIP (.v6 (toBytes16 a)) 128 ss sw =
        getBits16 ((128 - ss) / 8) sw (toBytes16 a) := rfl
    rw [e, getBits16_eq a sw _ ha hsw2 (by omega)]
    unfold specBits
    congr 2
    omega

/-- Witness for C9 at concrete inputs: address 0x0A0B0C0D with ss = 16,
sw = 8 extracts byte 0x0B, and a 128-bit address with ss = 128, sw = 8
extracts its low byte. -/
theorem c9_bit_extraction_witness :
    getBitsIP (.v4 (toBytes4 168496141)) 32 16 8 = specBits 32 8 8 168496141 ∧
    getBitsIP (.v6 (toBytes16 338822822)) 128 128 8 = specBits 128 120 8 338822822 :=
  ⟨c9_bit_extraction.1 168496141 16 8 (by norm_num) (by norm_num) (by norm_num)
      (by norm_num) (by norm_num),
    c9_bit_extraction.2 338822822 128 8 (by norm_num) (by norm_num) (by norm_num)
      (by norm_num) (by norm_num)⟩


lemma newTable_isSome_iff (strides : List Nat) :
    (newTable strides).isSome ↔
      strides ≠ [] ∧ strides.length ≤ maxLevel ∧
      (∀ s ∈ strides.dropLast, s % 8 = 0) ∧ (∀ s ∈ strides, s ≤ 32) := by
  unfold newTable
  split_ifs with h1 h2 h3
  · simp only [Option.isSome_none, Bool.false_eq_true, false_iff]
    rintro ⟨-, h5, -, -⟩
    unfold maxLevel at h3 h5
    omega
  · cases strides with
    | nil => simp
    | cons a l =>
        simp only [Option.isSome_some, true_iff]
        exact ⟨by simp, by unfold maxLevel at h3 ⊢; omega, h1, h2⟩
  · simp only [Option.isSome_none, Bool.false_eq_true, false_iff]
    rintro ⟨-, -, -, h7⟩
    exact h2 h7
  · simp only [Option.isSome_none, Bool.false_eq_true, false_iff]
    rintro ⟨-, -, h6, -⟩
    exact h1 h6

lemma newTable_eq_some {strides : List Nat} {t : Table}
    (h : newTable strides = some t) :
    t.w = strides.sum ∧ t.strides = strides ∧ t.root = newTableNode := by
  unfold newTable at h
  split_ifs at h
  cases strides with
  | nil => simp at h
  | cons a l =>
      simp only [Option.some.injEq] at h
      subst h
      exact ⟨rfl, rfl, rfl⟩

/-- C6 amended: NewTable validates exactly three conditions — every stride
but the last divisible by 8, each stride at most 32, at most 16 strides —
and otherwise (also requiring a nonempty schedule, whose violation is the
strides[0] index panic) returns a table with w equal to the plain sum of
the strides, the given schedule, and an empty root node; it does NOT
validate that the strides sum to 32 or 128. -/
theorem c6_amended :
    ∀ strides : List Nat,
      ((newTable strides).isSome ↔
        strides ≠ [] ∧ strides.length ≤ maxLevel ∧
        (∀ s ∈ strides.dropLast, s % 8 = 0) ∧ (∀ s ∈ strides, s ≤ 32)) ∧
      ∀ t, newTable strides = some t →
        t.w = strides.sum ∧ t.strides = strides ∧ t.root = newTableNode :=
  fun strides => ⟨newTable_isSome_iff strides, fun _ h => newTable_eq_some h⟩

/-- Witness for C6 at the concrete schedule 16,8,8: construction succeeds
and produces the empty table with w = 32. -/
theorem c6_amended_witness :
    (newTable [16, 8, 8]).isSome ∧
    Table.w ⟨([16, 8, 8] : List Nat).sum, [16, 8, 8], newTableNode⟩ =
      ([16, 8, 8] : List Nat).sum :=
  ⟨(c6_amended [16, 8, 8]).1.mpr (by decide),
   ((c6_amended [16, 8, 8]).2 ⟨([16, 8, 8] : List Nat).sum, [16, 8, 8], newTableNode⟩ rfl).1⟩


lemma TNode.eta (x : TNode) : TNode.mk x.r x.n x.ref = x := by
  cases x
  rfl

lemma insertLevels_of_stored (gb : Nat → Nat → Nat) (r : Route) :
    ∀ (sl : List Nat) (ss : Nat) (x : TNode),
      storedLevels gb r.ipp sl ss x = true →
      insertLevels gb r.ipp.bits r sl ss x = some (x, false) := by
  intro sl
  induction sl with
  | nil => intro ss x h; simp [storedLevels] at h
  | cons cur rest ih =>
      intro ss x h
      unfold storedLevels at h
      unfold insertLevels
      by_cases hb : r.ipp.bits ≤ ss + cur
      · simp only [if_pos hb] at h ⊢
        unfold insertSingle
        cases hx : x.r (baseIndex cur (gb (ss + cur) cur) (r.ipp.bits - ss)) with
        | none => simp only [hx] at h; simp at h
        | some v =>
            simp only [hx, decide_eq_true_eq] at h
            simp only [hx]
            rw [if_pos h.symm]
            simp [TNode.eta]
      · simp only [if_neg hb] at h ⊢
        cases hn : x.n (fringeIndex cur (gb (ss + cur) cur)) with
        | none => simp only [hn] at h; simp at h
        | some child =>
            simp only [hn] at h
            simp only [hn, ih (ss + cur) child h]
            have hnu : nupd x.n (fringeIndex cur (gb (ss + cur) cur)) (some child) = x.n := by
              funext j
              unfold nupd
              by_cases hj : j = fringeIndex cur (gb (ss + cur) cur)
              · rw [if_pos hj, hj, hn]
              · rw [if_neg hj]
            simp [hnu, TNode.eta]

/-- C5: if a route's exact prefix is already stored in the table (the
descent finds a route with equal prefix — address-library equality — in the
terminal base-index slot, or in `r[1]` for a default route), then Insert
returns false and the table is returned entirely unchanged: no allotment
slot, no child array, and no reference count differs.  Proved for every
table state, hence in particular for every reachable one. -/
theorem c5_duplicate_insert_noop :
    ∀ (t : Table) (r : Route), storedT t r.ipp = true → insertT t r = some (t, false) := by
  intro t r h
  unfold storedT at h
  unfold insertT
  by_cases hb : r.ipp.bits = 0
  · simp only [if_pos hb] at h ⊢
    cases hx : t.root.r 1 with
    | none => simp only [hx] at h; simp at h
    | some v => simp only [hx]
  · simp only [if_neg hb] at h ⊢
    rw [insertLevels_of_stored (getBitsIP r.ipp.ip t.w) r t.strides 0 t.root h]

/-- Witness for C5: re-inserting 0.0.0.0/1 into the concrete table that
already stores it returns false and the unchanged table. -/
theorem c5_duplicate_insert_noop_witness :
    insertT tabHalf half0 = some (tabHalf, false) :=
  c5_duplicate_insert_noop tabHalf half0 (by decide)


lemma div_pow_succ (i k : Nat) : i / 2 ^ (k + 1) = i / 2 ^ k / 2 := by
  rw [pow_succ, ← Nat.div_div_eq_div_mul]

lemma div_pow_succ' (i k : Nat) : i / 2 ^ (k + 1) = i / 2 / 2 ^ k := by
  rw [pow_succ', ← Nat.div_div_eq_div_mul]

lemma inSub_self (b : Nat) : inSub b b := ⟨0, by simp⟩

lemma inSub_ge {b i : Nat} (h : inSub b i) : b ≤ i := by
  obtain ⟨k, hk⟩ := h
  have := Nat.div_le_self i (2 ^ k)
  omega

lemma inSub_double {b i : Nat} (h : inSub b i) :
    inSub b (2 * i) ∧ inSub b (2 * i + 1) := by
  obtain ⟨k, hk⟩ := h
  have h1 : 2 * i / 2 = i := by omega
  have h2 : (2 * i + 1) / 2 = i := by omega
  exact ⟨⟨k + 1, by rw [div_pow_succ', h1, hk]⟩, ⟨k + 1, by rw [div_pow_succ', h2, hk]⟩⟩

lemma inSub_sub_left {b i : Nat} (h : inSub (2 * b) i) : inSub b i := by
  obtain ⟨k, hk⟩ := h
  exact ⟨k + 1, by rw [div_pow_succ, hk]; omega⟩

lemma inSub_sub_right {b i : Nat} (h : inSub (2 * b + 1) i) : inSub b i := by
  obtain ⟨k, hk⟩ := h
  exact ⟨k + 1, by rw [div_pow_succ, hk]; omega⟩

lemma inSub_child {c m : Nat} (h : inSub c m) : m = c ∨ inSub c (m / 2) := by
  obtain ⟨k, hk⟩ := h
  cases k with
  | zero => left; simpa using hk
  | succ k' =>
      right
      rw [div_pow_succ'] at hk
      exact ⟨k', hk⟩

lemma inSub_disjoint {b i : Nat} (hb : 1 ≤ b)
    (h1 : inSub (2 * b) i) (h2 : inSub (2 * b + 1) i) : False := by
  obtain ⟨k1, hk1⟩ := h1
  obtain ⟨k2, hk2⟩ := h2
  rcases Nat.lt_trichotomy k1 k2 with h | h | h
  · have hsp : i / 2 ^ k2 = i / 2 ^ k1 / 2 ^ (k2 - k1) := by
      rw [Nat.div_div_eq_div_mul, ← pow_add]
      congr 2
      omega
    rw [hsp, hk1] at hk2
    have hd : (2 : Nat) ≤ 2 ^ (k2 - k1) := by
      calc (2 : Nat) = 2 ^ 1 := by norm_num
        _ ≤ 2 ^ (k2 - k1) := Nat.pow_le_pow_right (by norm_num) (by omega)
    have h4 : 2 * b / 2 ^ (k2 - k1) ≤ 2 * b / 2 := Nat.div_le_div_left hd (by norm_num)
    omega
  · rw [h] at hk1
    omega
  · have hsp : i / 2 ^ k1 = i / 2 ^ k2 / 2 ^ (k1 - k2) := by
      rw [Nat.div_div_eq_div_mul, ← pow_add]
      congr 2
      omega
    rw [hsp, hk2] at hk1
    have hd : (2 : Nat) ≤ 2 ^ (k1 - k2) := by
      calc (2 : Nat) = 2 ^ 1 := by norm_num
        _ ≤ 2 ^ (k1 - k2) := Nat.pow_le_pow_right (by norm_num) (by omega)
    have h4 : (2 * b + 1) / 2 ^ (k1 - k2) ≤ (2 * b + 1) / 2 := Nat.div_le_div_left hd (by norm_num)
    omega

lemma inSub_cases {b i : Nat} (h : inSub b i) :
    i = b ∨ inSub (2 * b) i ∨ inSub (2 * b + 1) i := by
  obtain ⟨k, hk⟩ := h
  cases k with
  | zero => left; simpa using hk
  | succ k' =>
      right
      rw [div_pow_succ] at hk
      rcases Nat.even_or_odd (i / 2 ^ k') with he | ho
      · obtain ⟨m, hm⟩ := he
        left
        exact ⟨k', by omega⟩
      · obtain ⟨m, hm⟩ := ho
        right
        exact ⟨k', by omega⟩


lemma Reach_inSub {rs : RArr} {q : Option Route} {sfi b i : Nat}
    (h : Reach rs q sfi b i) : inSub b i := by
  induction h with
  | self => exact inSub_self b
  | left _ _ _ ih => exact (inSub_double ih).1
  | right _ _ _ ih => exact (inSub_double ih).2

lemma Reach_congr {rs1 rs2 : RArr} {q : Option Route} {sfi b i : Nat}
    (hagree : ∀ j, inSub b j → rs1 j = rs2 j)
    (h : Reach rs1 q sfi b i) : Reach rs2 q sfi b i := by
  induction h with
  | self => exact .self
  | left h hq hlt ih => exact .left ih (by rw [← hagree _ (Reach_inSub h)]; exact hq) hlt
  | right h hq hlt ih => exact .right ih (by rw [← hagree _ (Reach_inSub h)]; exact hq) hlt

lemma Reach_lift_left {rs : RArr} {q : Option Route} {sfi b i : Nat}
    (hq : rs b = q) (hlt : b < sfi)
    (h : Reach rs q sfi (2 * b) i) : Reach rs q sfi b i := by
  induction h with
  | self => exact .left .self hq hlt
  | left _ hq' hlt' ih => exact .left ih hq' hlt'
  | right _ hq' hlt' ih => exact .right ih hq' hlt'

lemma Reach_lift_right {rs : RArr} {q : Option Route} {sfi b i : Nat}
    (hq : rs b = q) (hlt : b < sfi)
    (h : Reach rs q sfi (2 * b + 1) i) : Reach rs q sfi b i := by
  induction h with
  | self => exact .right .self hq hlt
  | left _ hq' hlt' ih => exact .left ih hq' hlt'
  | right _ hq' hlt' ih => exact .right ih hq' hlt'

lemma Reach_desc_left {rs : RArr} {q : Option Route} {sfi b i : Nat} (hb : 1 ≤ b)
    (h : Reach rs q sfi b i) : inSub (2 * b) i → Reach rs q sfi (2 * b) i := by
  induction h with
  | self => exact fun hi => absurd (inSub_ge hi) (by omega)
  | @left j _ hq hlt ih =>
      intro hi
      rcases inSub_child hi with he | hs
      · have hjb : j = b := by omega
        subst hjb
        exact .self
      · rw [show 2 * j / 2 = j by omega] at hs
        exact .left (ih hs) hq hlt
  | @right j _ hq hlt ih =>
      intro hi
      rcases inSub_child hi with he | hs
      · omega
      · rw [show (2 * j + 1) / 2 = j by omega] at hs
        exact .right (ih hs) hq hlt

lemma Reach_desc_right {rs : RArr} {q : Option Route} {sfi b i : Nat} (hb : 1 ≤ b)
    (h : Reach rs q sfi b i) : inSub (2 * b + 1) i → Reach rs q sfi (2 * b + 1) i := by
  induction h with
  | self => exact fun hi => absurd (inSub_ge hi) (by omega)
  | @left j _ hq hlt ih =>
      intro hi
      rcases inSub_child hi with he | hs
      · omega
      · rw [show 2 * j / 2 = j by omega] at hs
        exact .left (ih hs) hq hlt
  | @right j _ hq hlt ih =>
      intro hi
      rcases inSub_child hi with he | hs
      · have hjb : j = b := by omega
        subst hjb
        exact .self
      · rw [show (2 * j + 1) / 2 = j by omega] at hs
        exact .right (ih hs) hq hlt

lemma Reach_start {rs : RArr} {q : Option Route} {sfi b i : Nat}
    (h : Reach rs q sfi b i) (hne : i ≠ b) : rs b = q ∧ b < sfi := by
  induction h with
  | self => exact absurd rfl hne
  | @left j h' hq hlt ih =>
      by_cases hj : j = b
      · subst hj
        exact ⟨hq, hlt⟩
      · exact ih hj
  | @right j h' hq hlt ih =>
      by_cases hj : j = b
      · subst hj
        exact ⟨hq, hlt⟩
      · exact ih hj

lemma allot_frame :
    ∀ (fuel sfi b : Nat) (q new : Option Route) (rs rs' : RArr),
      allot fuel sfi b q new rs = some rs' →
      ∀ i, ¬ inSub b i → rs' i = rs i := by
  intro fuel
  induction fuel with
  | zero =>
      intro sfi b q new rs rs' h
      simp [allot] at h
  | succ f ih =>
      intro sfi b q new rs rs' h i hi
      have hib : i ≠ b := fun he => hi (he ▸ inSub_self b)
      unfold allot at h
      cases hrb : rs b with
      | none =>
          cases q with
          | some c => rw [hrb] at h; exact absurd h (by simp)
          | none =>
              rw [hrb] at h
              simp only [if_pos rfl] at h
              by_cases hsfi : sfi ≤ b
              · rw [if_pos hsfi] at h
                cases h
                unfold rupd
                rw [if_neg hib]
              · rw [if_neg hsfi] at h
                cases h2 : allot f sfi (2 * b) none new (rupd rs b new) with
                | none => rw [h2] at h; exact absurd h (by simp)
                | some x2 =>
                    rw [h2] at h
                    have e1 : rs' i = x2 i :=
                      ih sfi (2 * b + 1) none new x2 rs' h i
                        (fun hsub => hi (inSub_sub_right hsub))
                    have e2 : x2 i = rupd rs b new i :=
                      ih sfi (2 * b) none new (rupd rs b new) x2 h2 i
                        (fun hsub => hi (inSub_sub_left hsub))
                    rw [e1, e2]
                    unfold rupd
                    rw [if_neg hib]
      | some a =>
          cases q with
          | none =>
              rw [hrb] at h
              simp only [if_neg (by simp : ¬ (some a = (none : Option Route)))] at h
              cases h
              rfl
          | some c =>
              rw [hrb] at h
              by_cases hac : a = c
              · subst hac
                simp only [if_pos rfl] at h
                by_cases hsfi : sfi ≤ b
                · rw [if_pos hsfi] at h
                  cases h
                  unfold rupd
                  rw [if_neg hib]
                · rw [if_neg hsfi] at h
                  cases h2 : allot f sfi (2 * b) (some a) new (rupd rs b new) with
                  | none => rw [h2] at h; exact absurd h (by simp)
                  | some x2 =>
                      rw [h2] at h
                      have e1 : rs' i = x2 i :=
                        ih sfi (2 * b + 1) (some a) new x2 rs' h i
                          (fun hsub => hi (inSub_sub_right hsub))
                      have e2 : x2 i = rupd rs b new i :=
                        ih sfi (2 * b) (some a) new (rupd rs b new) x2 h2 i
                          (fun hsub => hi (inSub_sub_left hsub))
                      rw [e1, e2]
                      unfold rupd
                      rw [if_neg hib]
              · simp only [if_neg (by simpa using hac :
                    ¬ (some a = (some c : Option Route)))] at h
                cases h
                rfl


lemma rupd_self (rs : RArr) (b : Nat) (v : Option Route) : rupd rs b v b = v := by
  unfold rupd
  rw [if_pos rfl]

lemma rupd_other (rs : RArr) (b i : Nat) (v : Option Route) (h : i ≠ b) :
    rupd rs b v i = rs i := by
  unfold rupd
  rw [if_neg h]

lemma not_inSub_left_base {b : Nat} (hb : 1 ≤ b) : ¬ inSub (2 * b) b :=
  fun h => by have := inSub_ge h; omega

lemma not_inSub_right_base {b : Nat} (hb : 1 ≤ b) : ¬ inSub (2 * b + 1) b :=
  fun h => by have := inSub_ge h; omega

lemma allot_spec :
    ∀ (fuel sfi b : Nat) (q new : Option Route) (rs : RArr),
      1 ≤ b → 1 ≤ fuel → sfi ≤ b * 2 ^ (fuel - 1) →
      (∀ i, Reach rs q sfi b i → rs i = none → q = none) →
      ∃ rs', allot fuel sfi b q new rs = some rs' ∧
        (∀ i, Reach rs q sfi b i → rs i = q → rs' i = new) ∧
        (∀ i, ¬ (Reach rs q sfi b i ∧ rs i = q) → rs' i = rs i) := by
  intro fuel
  induction fuel with
  | zero => intro sfi b q new rs _ hf _ _; omega
  | succ f ih =>
      intro sfi b q new rs hb hf hsz hsafe
      by_cases hguard : rs b = q
      · -- the guard passes and the slot is rewritten
        by_cases hsfi : sfi ≤ b
        · -- fringe: only b itself is rewritten
          refine ⟨rupd rs b new, ?_, ?_, ?_⟩
          · unfold allot
            cases hrb : rs b with
            | none =>
                cases q with
                | some c => rw [hrb] at hguard; exact absurd hguard (by simp)
                | none => simp [hsfi]
            | some a =>
                cases q with
                | none => rw [hrb] at hguard; exact absurd hguard (by simp)
                | some c =>
                    rw [hrb] at hguard
                    injection hguard with hac
                    subst hac
                    simp [hsfi]
          · intro i hre hq
            have hieq : i = b := by
              by_cases hne : i = b
              · exact hne
              · exact absurd (Reach_start hre hne).2 (by omega)
            rw [hieq, rupd_self]
          · intro i hni
            by_cases hne : i = b
            · exact absurd ⟨hne ▸ Reach.self, hne ▸ hguard⟩ hni
            · rw [rupd_other _ _ _ _ hne]
        · -- interior: recurse into both children
          have hlt : b < sfi := by omega
          have hf2 : 1 ≤ f := by
            by_contra hc
            have hf0 : f = 0 := by omega
            rw [hf0] at hsz
            simp at hsz
            omega
          have hx1agL : ∀ j, inSub (2 * b) j → rupd rs b new j = rs j := by
            intro j hj
            exact rupd_other _ _ _ _ (fun he => not_inSub_left_base hb (he ▸ hj))
          have hszL : sfi ≤ 2 * b * 2 ^ (f - 1) := by
            have h2f : (2 : Nat) ^ f = 2 ^ (f - 1) * 2 := by
              conv_lhs => rw [show f = (f - 1) + 1 by omega]
              rw [pow_succ]
            have hbe : b * 2 ^ f = 2 * b * 2 ^ (f - 1) := by
              rw [h2f]
              ring
            simp only [Nat.add_sub_cancel] at hsz
            omega
          have hsafeL : ∀ i, Reach (rupd rs b new) q sfi (2 * b) i →
              rupd rs b new i = none → q = none := by
            intro i hre hnone
            have hsub : inSub (2 * b) i := Reach_inSub hre
            have hre' : Reach rs q sfi (2 * b) i :=
              Reach_congr (fun j hj => (hx1agL j hj)) hre
            have hre'' : Reach rs q sfi b i := Reach_lift_left hguard hlt hre'
            have : rs i = none := by rw [← hx1agL i hsub]; exact hnone
            exact hsafe i hre'' this
          obtain ⟨x2, hx2eq, hx2new, hx2frame⟩ :=
            ih sfi (2 * b) q new (rupd rs b new) (by omega) hf2 hszL hsafeL
          -- x2 agrees with rs on the right subtree and outside the left one
          have hx2agR : ∀ j, inSub (2 * b + 1) j → x2 j = rs j := by
            intro j hj
            have h1 : x2 j = rupd rs b new j := by
              apply hx2frame
              rintro ⟨hre, -⟩
              exact inSub_disjoint hb (Reach_inSub hre) hj
            rw [h1]
            exact rupd_other _ _ _ _ (fun he => not_inSub_right_base hb (he ▸ hj))
          have hszR : sfi ≤ (2 * b + 1) * 2 ^ (f - 1) := by
            have h1 : 2 * b * 2 ^ (f - 1) ≤ (2 * b + 1) * 2 ^ (f - 1) :=
              Nat.mul_le_mul_right _ (by omega)
            omega
          have hsafeR : ∀ i, Reach x2 q sfi (2 * b + 1) i →
              x2 i = none → q = none := by
            intro i hre hnone
            have hsub : inSub (2 * b + 1) i := Reach_inSub hre
            have hre' : Reach rs q sfi (2 * b + 1) i :=
              Reach_congr (fun j hj => hx2agR j hj) hre
            have hre'' : Reach rs q sfi b i := Reach_lift_right hguard hlt hre'
            have : rs i = none := by rw [← hx2agR i hsub]; exact hnone
            exact hsafe i hre'' this
          obtain ⟨rs3, hrs3eq, hnew3, hframe3⟩ :=
            ih sfi (2 * b + 1) q new x2 (by omega) hf2 hszR hsafeR
          refine ⟨rs3, ?_, ?_, ?_⟩
          · unfold allot
            cases hrb : rs b with
            | none =>
                cases q with
                | some c => rw [hrb] at hguard; exact absurd hguard (by simp)
                | none => simp [hsfi, hx2eq, hrs3eq]
            | some a =>
                cases q with
                | none => rw [hrb] at hguard; exact absurd hguard (by simp)
                | some c =>
                    rw [hrb] at hguard
                    injection hguard with hac
                    subst hac
                    simp [hsfi, hx2eq, hrs3eq]
          · -- all reached q-slots got the new value
            intro i hre hq
            rcases inSub_cases (Reach_inSub hre) with hieq | hsubL | hsubR
            · subst hieq
              have h1 : rs3 i = x2 i := by
                apply hframe3
                rintro ⟨hre', -⟩
                exact not_inSub_right_base hb (Reach_inSub hre')
              have h2 : x2 i = rupd rs i new i := by
                apply hx2frame
                rintro ⟨hre', -⟩
                exact not_inSub_left_base hb (Reach_inSub hre')
              rw [h1, h2, rupd_self]
            · have hreL : Reach rs q sfi (2 * b) i := Reach_desc_left hb hre hsubL
              have hreL' : Reach (rupd rs b new) q sfi (2 * b) i :=
                Reach_congr (fun j hj => (hx1agL j hj).symm) hreL
              have hq' : rupd rs b new i = q := by
                rw [hx1agL i hsubL]
                exact hq
              have h1 : rs3 i = x2 i := by
                apply hframe3
                rintro ⟨hre', -⟩
                exact inSub_disjoint hb hsubL (Reach_inSub hre')
              rw [h1]
              exact hx2new i hreL' hq'
            · have hreR : Reach rs q sfi (2 * b + 1) i := Reach_desc_right hb hre hsubR
              have hreR' : Reach x2 q sfi (2 * b + 1) i :=
                Reach_congr (fun j hj => (hx2agR j hj).symm) hreR
              have hq' : x2 i = q := by
                rw [hx2agR i hsubR]
                exact hq
              exact hnew3 i hreR' hq'
          · -- everything else is untouched
            intro i hni
            by_cases hsub : inSub b i
            · rcases inSub_cases hsub with hieq | hsubL | hsubR
              · exact absurd ⟨hieq ▸ Reach.self, hieq ▸ hguard⟩ hni
              · have h1 : rs3 i = x2 i := by
                  apply hframe3
                  rintro ⟨hre', -⟩
                  exact inSub_disjoint hb hsubL (Reach_inSub hre')
                have h2 : x2 i = rupd rs b new i := by
                  apply hx2frame
                  rintro ⟨hre', hq'⟩
                  have hreL : Reach rs q sfi (2 * b) i :=
                    Reach_congr (fun j hj => hx1agL j hj) hre'
                  have hre'' : Reach rs q sfi b i := Reach_lift_left hguard hlt hreL
                  have hqi : rs i = q := by
                    rw [← hx1agL i hsubL]
                    exact hq'
                  exact hni ⟨hre'', hqi⟩
                rw [h1, h2]
                exact rupd_other _ _ _ _ (fun he => not_inSub_left_base hb (he ▸ hsubL))
              · have h1 : rs3 i = x2 i := by
                  apply hframe3
                  rintro ⟨hre', hq'⟩
                  have hreR : Reach rs q sfi (2 * b + 1) i :=
                    Reach_congr (fun j hj => hx2agR j hj) hre'
                  have hre'' : Reach rs q sfi b i := Reach_lift_right hguard hlt hreR
                  have hqi : rs i = q := by
                    rw [← hx2agR i hsubR]
                    exact hq'
                  exact hni ⟨hre'', hqi⟩
                rw [h1]
                exact hx2agR i hsubR
            · have h1 : rs3 i = x2 i := by
                apply hframe3
                rintro ⟨hre', -⟩
                exact hsub (inSub_sub_right (Reach_inSub hre'))
              have h2 : x2 i = rupd rs b new i := by
                apply hx2frame
                rintro ⟨hre', -⟩
                exact hsub (inSub_sub_left (Reach_inSub hre'))
              rw [h1, h2]
              exact rupd_other _ _ _ _ (fun he => hsub (he ▸ inSub_self b))
      · -- the guard stops immediately: nothing changes
        have hempty : ∀ i, ¬ (Reach rs q sfi b i ∧ rs i = q) := by
          rintro i ⟨hre, hq⟩
          by_cases hne : i = b
          · exact hguard (hne ▸ hq)
          · exact hguard (Reach_start hre hne).1
        refine ⟨rs, ?_, ?_, ?_⟩
        · unfold allot
          cases q with
          | none =>
              cases hrb : rs b with
              | none => rw [hrb] at hguard; exact absurd rfl hguard
              | some a => simp
          | some c =>
              cases hrb : rs b with
              | none => exact absurd (hsafe b Reach.self hrb) (by simp)
              | some a =>
                  rw [hrb] at hguard
                  simp [hguard]
        · intro i hre hqi
          exact absurd ⟨hre, hqi⟩ (hempty i)
        · intro i _
          rfl


lemma Reach_parent {rs : RArr} {q : Option Route} {sfi b c : Nat}
    (h : Reach rs q sfi b c) (hne : c ≠ b) :
    Reach rs q sfi b (c / 2) ∧ rs (c / 2) = q ∧ c / 2 < sfi := by
  cases h with
  | self => exact absurd rfl hne
  | @left j h' hq hlt => rw [show 2 * j / 2 = j by omega]; exact ⟨h', hq, hlt⟩
  | @right j h' hq hlt => rw [show (2 * j + 1) / 2 = j by omega]; exact ⟨h', hq, hlt⟩

lemma DN_reach_isSome {rs : RArr} {sfi b : Nat} (hdn : DN sfi rs) (hb : 2 ≤ b)
    (hsome : (rs b).isSome) :
    ∀ i, Reach rs (rs b) sfi b i → (rs i).isSome := by
  intro i hre
  induction hre with
  | self => exact hsome
  | @left j h hq hlt ih =>
      have hj2 : 2 ≤ j := le_trans hb (inSub_ge (Reach_inSub h))
      exact (hdn j hj2 hlt (by rw [hq]; exact hsome)).1
  | @right j h hq hlt ih =>
      have hj2 : 2 ≤ j := le_trans hb (inSub_ge (Reach_inSub h))
      exact (hdn j hj2 hlt (by rw [hq]; exact hsome)).2

lemma DN_hsafe {rs : RArr} {sfi b : Nat} (hdn : DN sfi rs) (hb : 2 ≤ b) :
    ∀ i, Reach rs (rs b) sfi b i → rs i = none → rs b = none := by
  intro i hre hni
  cases hrb : rs b with
  | none => rfl
  | some a =>
      have := DN_reach_isSome hdn hb (by rw [hrb]; rfl) i hre
      rw [hni] at this
      simp at this

lemma allot_fuel_size {sfi b : Nat} (hsfi : sfi ≤ 2 ^ 32) (hb : 1 ≤ b) :
    sfi ≤ b * 2 ^ (allotFuel - 1) := by
  calc sfi ≤ 2 ^ 32 := hsfi
    _ = 1 * 2 ^ 32 := by ring
    _ ≤ b * 2 ^ 32 := Nat.mul_le_mul_right _ (by omega)
    _ = b * 2 ^ (allotFuel - 1) := by norm_num [allotFuel]

lemma allot_isSome_of_DN {rs : RArr} {sfi b : Nat} (new : Option Route)
    (hdn : DN sfi rs) (hb : 2 ≤ b) (hsfi : sfi ≤ 2 ^ 32) :
    (allot allotFuel sfi b (rs b) new rs).isSome := by
  obtain ⟨rs', heq, -, -⟩ :=
    allot_spec allotFuel sfi b (rs b) new rs (by omega) (by norm_num [allotFuel])
      (allot_fuel_size hsfi (by omega)) (DN_hsafe hdn hb)
  rw [heq]
  rfl

lemma allot_fringe_isSome (sfi b : Nat) (new : Option Route) (rs : RArr)
    (h : sfi ≤ b) : (allot allotFuel sfi b (rs b) new rs).isSome := by
  show (allot (32 + 1) sfi b (rs b) new rs).isSome
  unfold allot
  cases rs b with
  | none => simp [h]
  | some a => simp [h]

lemma DN_allot {rs rs' : RArr} {sfi b : Nat} {new : Option Route}
    (hdn : DN sfi rs) (hb : 2 ≤ b) (hsfi : sfi ≤ 2 ^ 32)
    (hnew : new.isSome ∨ new = rs (b / 2))
    (heq : allot allotFuel sfi b (rs b) new rs = some rs') :
    DN sfi rs' := by
  obtain ⟨rs'', heq'', hset, hframe⟩ :=
    allot_spec allotFuel sfi b (rs b) new rs (by omega) (by norm_num [allotFuel])
      (allot_fuel_size hsfi (by omega)) (DN_hsafe hdn hb)
  have hre : rs'' = rs' := by
    rw [heq] at heq''
    exact (Option.some.inj heq'').symm
  subst hre
  intro i hi2 hisfi hsome'
  have hchild : ∀ c, c = 2 * i ∨ c = 2 * i + 1 → (rs'' c).isSome := by
    intro c hc
    by_cases hSi : Reach rs (rs b) sfi b i ∧ rs i = rs b
    · have hri' : rs'' i = new := hset i hSi.1 hSi.2
      have hnewSome : new.isSome := by rw [← hri']; exact hsome'
      by_cases hSc : Reach rs (rs b) sfi b c ∧ rs c = rs b
      · rw [hset c hSc.1 hSc.2]
        exact hnewSome
      · rw [hframe c hSc]
        cases hq : rs b with
        | some a =>
            have hi : (rs i).isSome := by rw [hSi.2, hq]; rfl
            have hch := hdn i hi2 hisfi hi
            rcases hc with rfl | rfl
            · exact hch.1
            · exact hch.2
        | none =>
            have hreC : Reach rs (rs b) sfi b c := by
              rcases hc with rfl | rfl
              · exact .left hSi.1 hSi.2 hisfi
              · exact .right hSi.1 hSi.2 hisfi
            have hne : rs c ≠ rs b := fun hcq => hSc ⟨hreC, hcq⟩
            rw [hq] at hne
            cases hrc : rs c with
            | none => exact absurd hrc hne
            | some _ => rfl
    · have hri' : rs'' i = rs i := hframe i hSi
      have hsomei : (rs i).isSome := by rw [← hri']; exact hsome'
      by_cases hSc : Reach rs (rs b) sfi b c ∧ rs c = rs b
      · rw [hset c hSc.1 hSc.2]
        rcases hnew with hs | hrnew
        · exact hs
        · by_cases hcb : c = b
          · have hbi : b / 2 = i := by omega
            rw [hrnew, hbi]
            exact hsomei
          · obtain ⟨hrp, hqp, hltp⟩ := Reach_parent hSc.1 hcb
            have hci : c / 2 = i := by omega
            rw [hci] at hrp hqp
            exact absurd ⟨hrp, hqp⟩ hSi
      · rw [hframe c hSc]
        have hch := hdn i hi2 hisfi hsomei
        rcases hc with rfl | rfl
        · exact hch.1
        · exact hch.2
  exact ⟨hchild (2 * i) (Or.inl rfl), hchild (2 * i + 1) (Or.inr rfl)⟩


lemma le_or_right (a b : Nat) : b ≤ a ||| b :=
  Nat.le_of_testBit fun i h => by
    rw [Nat.testBit_or]
    simp [h]

lemma baseIndex_ge_two {w s plen : Nat} (h1 : 1 ≤ plen) (h31 : plen ≤ 31) :
    2 ≤ baseIndex w s plen := by
  unfold baseIndex
  have hlt : (2 : Nat) ^ plen < 2 ^ 32 := by
    calc (2 : Nat) ^ plen ≤ 2 ^ 31 := Nat.pow_le_pow_right (by norm_num) h31
      _ < 2 ^ 32 := by norm_num
  have hm : (1 <<< plen) % 2 ^ 32 = 2 ^ plen := by
    rw [Nat.shiftLeft_eq, one_mul]
    exact Nat.mod_eq_of_lt hlt
  calc (2 : Nat) = 2 ^ 1 := by norm_num
    _ ≤ 2 ^ plen := Nat.pow_le_pow_right (by norm_num) h1
    _ = (1 <<< plen) % 2 ^ 32 := hm.symm
    _ ≤ (s >>> (w - plen)) ||| ((1 <<< plen) % 2 ^ 32) := le_or_right _ _

lemma sfi_le (w : Nat) : (1 <<< w) % 2 ^ 32 ≤ 2 ^ 32 :=
  le_of_lt (Nat.mod_lt _ (by norm_num))

lemma allot_isSome_of_DN' {rs : RArr} {sfi b : Nat} {q : Option Route} (new : Option Route)
    (hq : rs b = q) (hdn : DN sfi rs)
    (hcase : 2 ≤ b ∨ sfi = 0) (hsfi : sfi ≤ 2 ^ 32) :
    (allot allotFuel sfi b q new rs).isSome := by
  subst hq
  rcases hcase with hb | hz
  · exact allot_isSome_of_DN new hdn hb hsfi
  · exact allot_fringe_isSome sfi b new rs (by omega)

lemma DN_allot' {rs rs' : RArr} {sfi b : Nat} {q new : Option Route}
    (hq : rs b = q) (hdn : DN sfi rs)
    (hcase : 2 ≤ b ∨ sfi = 0) (hsfi : sfi ≤ 2 ^ 32)
    (hnew : new.isSome ∨ new = rs (b / 2))
    (heq : allot allotFuel sfi b q new rs = some rs') :
    DN sfi rs' := by
  subst hq
  rcases hcase with hb | hz
  · exact DN_allot hdn hb hsfi hnew heq
  · subst hz
    intro i _ hlt
    omega

lemma insertSingle_DN {w addr plen : Nat} {r : Route} {rs rs' : RArr} {ok : Bool}
    (hdn : DN ((1 <<< w) % 2 ^ 32) rs)
    (hcase : 2 ≤ baseIndex w addr plen ∨ (1 <<< w) % 2 ^ 32 = 0)
    (heq : insertSingle w addr plen r rs = some (rs', ok)) :
    DN ((1 <<< w) % 2 ^ 32) rs' := by
  unfold insertSingle at heq
  cases hx : rs (baseIndex w addr plen) with
  | some xb =>
      simp only [hx] at heq
      by_cases hpfx : r.ipp = xb.ipp
      · rw [if_pos hpfx] at heq
        simp only [Option.some.injEq, Prod.mk.injEq] at heq
        rw [← heq.1]
        exact hdn
      · rw [if_neg hpfx] at heq
        cases ha : allot allotFuel ((1 <<< w) % 2 ^ 32) (baseIndex w addr plen)
            (some xb) (some r) rs with
        | none => rw [ha] at heq; simp at heq
        | some y =>
            rw [ha] at heq
            simp only [Option.map_some', Option.some.injEq, Prod.mk.injEq] at heq
            rw [← heq.1]
            exact DN_allot' hx hdn hcase (sfi_le w) (Or.inl (by simp)) ha
  | none =>
      simp only [hx] at heq
      cases ha : allot allotFuel ((1 <<< w) % 2 ^ 32) (baseIndex w addr plen)
          none (some r) rs with
      | none => rw [ha] at heq; simp at heq
      | some y =>
          rw [ha] at heq
          simp only [Option.map_some', Option.some.injEq, Prod.mk.injEq] at heq
          rw [← heq.1]
          exact DN_allot' hx hdn hcase (sfi_le w) (Or.inl (by simp)) ha

lemma insertSingle_isSome {w addr plen : Nat} (r : Route) {rs : RArr}
    (hdn : DN ((1 <<< w) % 2 ^ 32) rs)
    (hcase : 2 ≤ baseIndex w addr plen ∨ (1 <<< w) % 2 ^ 32 = 0) :
    (insertSingle w addr plen r rs).isSome := by
  unfold insertSingle
  cases hx : rs (baseIndex w addr plen) with
  | some xb =>
      simp only [hx]
      by_cases hpfx : r.ipp = xb.ipp
      · rw [if_pos hpfx]; rfl
      · rw [if_neg hpfx]
        have h1 := allot_isSome_of_DN' (q := some xb) (some r) hx hdn hcase (sfi_le w)
        obtain ⟨y, hy⟩ := Option.isSome_iff_exists.mp h1
        rw [hy]
        rfl
  | none =>
      simp only [hx]
      have h1 := allot_isSome_of_DN' (q := none) (some r) hx hdn hcase (sfi_le w)
      obtain ⟨y, hy⟩ := Option.isSome_iff_exists.mp h1
      rw [hy]
      rfl

lemma deleteSingle_DN {w addr plen : Nat} {rs rs' : RArr} {del : Option Route} {ok : Bool}
    (hdn : DN ((1 <<< w) % 2 ^ 32) rs)
    (hcase : 2 ≤ baseIndex w addr plen ∨ (1 <<< w) % 2 ^ 32 = 0)
    (heq : deleteSingle w addr plen rs = some (rs', del, ok)) :
    DN ((1 <<< w) % 2 ^ 32) rs' := by
  unfold deleteSingle at heq
  cases hx : rs (baseIndex w addr plen) with
  | none =>
      simp only [hx] at heq
      simp only [Option.some.injEq, Prod.mk.injEq] at heq
      rw [← heq.1]
      exact hdn
  | some prev =>
      simp only [hx] at heq
      cases ha : allot allotFuel ((1 <<< w) % 2 ^ 32) (baseIndex w addr plen)
          (some prev) (rs (baseIndex w addr plen >>> 1)) rs with
      | none => rw [ha] at heq; simp at heq
      | some y =>
          rw [ha] at heq
          simp only [Option.map_some', Option.some.injEq, Prod.mk.injEq] at heq
          rw [← heq.1]
          exact DN_allot' hx hdn hcase (sfi_le w) (Or.inr rfl) ha

lemma deleteSingle_isSome {w addr plen : Nat} {rs : RArr}
    (hdn : DN ((1 <<< w) % 2 ^ 32) rs)
    (hcase : 2 ≤ baseIndex w addr plen ∨ (1 <<< w) % 2 ^ 32 = 0) :
    (deleteSingle w addr plen rs).isSome := by
  unfold deleteSingle
  cases hx : rs (baseIndex w addr plen) with
  | none => simp [hx]
  | some prev =>
      simp only [hx]
      have h1 := allot_isSome_of_DN' (q := some prev)
        (rs (baseIndex w addr plen >>> 1)) hx hdn hcase (sfi_le w)
      obtain ⟨y, hy⟩ := Option.isSome_iff_exists.mp h1
      rw [hy]
      rfl


lemma allDN_newTableNode (sl : List Nat) : allDN sl newTableNode := by
  cases sl with
  | nil => trivial
  | cons cur rest =>
      constructor
      · intro i _ _ hsome
        simp [newTableNode, TNode.r] at hsome
      · intro i c hc
        simp [newTableNode, TNode.n] at hc

lemma DN_rupd_one {sfi : Nat} {rs : RArr} (hdn : DN sfi rs) (v : Option Route) :
    DN sfi (rupd rs 1 v) := by
  intro i hi2 hlt hsome
  rw [rupd_other _ _ _ _ (by omega)] at hsome
  have hch := hdn i hi2 hlt hsome
  rw [rupd_other _ _ _ _ (by omega), rupd_other _ _ _ _ (by omega)]
  exact hch

lemma sfi32_eq_zero : (1 <<< 32) % 2 ^ 32 = 0 := by decide

lemma terminal_hcase {cur bits ss : Nat} (hcur : cur ≤ 32) (hss : ss < bits)
    (hb : bits ≤ ss + cur) (s : Nat) :
    2 ≤ baseIndex cur s (bits - ss) ∨ (1 <<< cur) % 2 ^ 32 = 0 := by
  by_cases h31 : bits - ss ≤ 31
  · exact Or.inl (baseIndex_ge_two (by omega) h31)
  · have hc32 : cur = 32 := by omega
    subst hc32
    exact Or.inr sfi32_eq_zero

lemma insertLevels_allDN {gb : Nat → Nat → Nat} {bits : Nat} {r : Route} :
    ∀ (sl : List Nat) (ss : Nat) (x x' : TNode) (ok : Bool),
      (∀ s ∈ sl, s ≤ 32) → ss < bits → allDN sl x →
      insertLevels gb bits r sl ss x = some (x', ok) →
      allDN sl x' := by
  intro sl
  induction sl with
  | nil => intro ss x x' ok _ _ _ h; simp [insertLevels] at h
  | cons cur rest ih =>
      intro ss x x' ok hle hss hdn h
      have hcur : cur ≤ 32 := hle cur (by simp)
      unfold insertLevels at h
      by_cases hb : bits ≤ ss + cur
      · simp only [if_pos hb] at h
        cases his : insertSingle cur (gb (ss + cur) cur) (bits - ss) r x.r with
        | none => simp [his] at h
        | some p =>
            obtain ⟨y, ok'⟩ := p
            simp only [his, Option.some.injEq, Prod.mk.injEq] at h
            rw [← h.1]
            refine ⟨?_, ?_⟩
            · exact insertSingle_DN hdn.1 (terminal_hcase hcur hss hb _) his
            · intro j c hc
              exact hdn.2 j c hc
      · simp only [if_neg hb] at h
        cases hn : x.n (fringeIndex cur (gb (ss + cur) cur)) with
        | some child =>
            simp only [hn] at h
            cases hrec : insertLevels gb bits r rest (ss + cur) child with
            | none => simp [hrec] at h
            | some p =>
                obtain ⟨child', ok2⟩ := p
                simp only [hrec, Option.some.injEq, Prod.mk.injEq] at h
                rw [← h.1]
                refine ⟨hdn.1, ?_⟩
                intro j c hc
                simp only [TNode.n, nupd] at hc
                by_cases hj : j = fringeIndex cur (gb (ss + cur) cur)
                · rw [if_pos hj] at hc
                  injection hc with hc
                  rw [← hc]
                  exact ih (ss + cur) child child' ok2
                    (fun s hs => hle s (by simp [hs])) (by omega)
                    (hdn.2 _ child hn) hrec
                · rw [if_neg hj] at hc
                  exact hdn.2 j c hc
        | none =>
            simp only [hn] at h
            cases rest with
            | nil => simp at h
            | cons nx rest' =>
                cases hrec : insertLevels gb bits r (nx :: rest') (ss + cur)
                    newTableNode with
                | none => simp [hrec] at h
                | some p =>
                    obtain ⟨child', ok2⟩ := p
                    simp only [hrec, Option.some.injEq, Prod.mk.injEq] at h
                    rw [← h.1]
                    refine ⟨hdn.1, ?_⟩
                    intro j c hc
                    simp only [TNode.n, nupd] at hc
                    by_cases hj : j = fringeIndex cur (gb (ss + cur) cur)
                    · rw [if_pos hj] at hc
                      injection hc with hc
                      rw [← hc]
                      exact ih (ss + cur) newTableNode child' ok2
                        (fun s hs => hle s (by simp [hs])) (by omega)
                        (allDN_newTableNode _) hrec
                    · rw [if_neg hj] at hc
                      exact hdn.2 j c hc

lemma deleteLevels_allDN {gb : Nat → Nat → Nat} {bits : Nat} :
    ∀ (sl : List Nat) (ss : Nat) (x x' : TNode) (d : Option Route) (ok : Bool),
      (∀ s ∈ sl, s ≤ 32) → ss < bits → allDN sl x →
      deleteLevels gb bits sl ss x = some (x', d, ok) →
      allDN sl x' := by
  intro sl
  induction sl with
  | nil => intro ss x x' d ok _ _ _ h; simp [deleteLevels] at h
  | cons cur rest ih =>
      intro ss x x' d ok hle hss hdn h
      have hcur : cur ≤ 32 := hle cur (by simp)
      unfold deleteLevels at h
      by_cases hb : bits ≤ ss + cur
      · simp only [if_pos hb] at h
        cases hds : deleteSingle cur (gb (ss + cur) cur) (bits - ss) x.r with
        | none => simp [hds] at h
        | some p =>
            obtain ⟨y, dl, ok'⟩ := p
            simp only [hds] at h
            cases ok' with
            | true =>
                simp only [if_true, eq_self_iff_true, Option.some.injEq, Prod.mk.injEq] at h
                rw [← h.1]
                refine ⟨?_, ?_⟩
                · exact deleteSingle_DN hdn.1 (terminal_hcase hcur hss hb _) hds
                · intro j c hc
                  exact hdn.2 j c hc
            | false =>
                simp only [Bool.false_eq_true, if_false, Option.some.injEq, Prod.mk.injEq] at h
                rw [← h.1]
                exact hdn
      · simp only [if_neg hb] at h
        cases hn : x.n (fringeIndex cur (gb (ss + cur) cur)) with
        | none =>
            simp only [hn, Option.some.injEq, Prod.mk.injEq] at h
            rw [← h.1]
            exact hdn
        | some child =>
            simp only [hn] at h
            cases hrec : deleteLevels gb bits rest (ss + cur) child with
            | none => simp [hrec] at h
            | some p =>
                obtain ⟨child', dl, ok2⟩ := p
                simp only [hrec] at h
                have hchild' : allDN rest child' :=
                  ih (ss + cur) child child' dl ok2
                    (fun s hs => hle s (by simp [hs])) (by omega)
                    (hdn.2 _ child hn) hrec
                cases ok2 with
                | false =>
                    simp only [Bool.false_eq_true, if_false,
                      Option.some.injEq, Prod.mk.injEq] at h
                    rw [← h.1]
                    exact hdn
                | true =>
                    simp only [if_true, eq_self_iff_true] at h
                    by_cases hz : child'.ref = 0
                    · rw [if_pos hz] at h
                      simp only [Option.some.injEq, Prod.mk.injEq] at h
                      rw [← h.1]
                      refine ⟨hdn.1, ?_⟩
                      intro j c hc
                      simp only [TNode.n, nupd] at hc
                      by_cases hj : j = fringeIndex cur (gb (ss + cur) cur)
                      · rw [if_pos hj] at hc
                        exact absurd hc (by simp)
                      · rw [if_neg hj] at hc
                        exact hdn.2 j c hc
                    · rw [if_neg hz] at h
                      simp only [Option.some.injEq, Prod.mk.injEq] at h
                      rw [← h.1]
                      refine ⟨hdn.1, ?_⟩
                      intro j c hc
                      simp only [TNode.n, nupd] at hc
                      by_cases hj : j = fringeIndex cur (gb (ss + cur) cur)
                      · rw [if_pos hj] at hc
                        injection hc with hc
                        rw [← hc]
                        exact hchild'
                      · rw [if_neg hj] at hc
                        exact hdn.2 j c hc

end ART
